import Mathlib

/-!
sitemap: a depth-bounded crawler (`sitemap.go`)

A shallow embedding of `sitemap.go`.  The program calls into Go libraries
(`net/url`, `net/http`, `golang.org/x/net/html`, `strings`); what those calls
return is collected in an environment `Env`, so that every statement holds for
whatever the libraries and the network answer.  Go strings are Lean strings,
`int` is `Int` (the fetch counter and the depth never come near `2^63`), a Go
`map[string]T` is an association list with one entry per key, and a `nil`
pointer or map is `none`.
-/

set_option autoImplicit false

namespace Sitemap

/-! ## Library data -/

/-- The fields of `url.URL` (package `net/url`). `User` holds the user name and
the optional password of a `*url.Userinfo`. -/
structure URL where
  Scheme : String := ""
  Opaque : String := ""
  User : Option (String × Option String) := none
  Host : String := ""
  Path : String := ""
  RawPath : String := ""
  ForceQuery : Bool := false
  RawQuery : String := ""
  Fragment : String := ""
deriving DecidableEq, Repr

/-- The node kinds of `html.NodeType`. -/
inductive NodeType where
  | ErrorNode | TextNode | DocumentNode | ElementNode | CommentNode | DoctypeNode
deriving DecidableEq, Repr

/-- An `html.Attribute`. -/
structure Attribute where
  Namespace : String := ""
  Key : String
  Val : String
deriving DecidableEq, Repr

/-- An `html.Node`: its type, its data (the tag name of an element), its
attributes and its children from `FirstChild` along `NextSibling`. -/
inductive Node where
  | mk (type : NodeType) (data : String) (attr : List Attribute) (children : List Node)

/-- A Go `map[string]string` / `map[string]PageInfo`: one entry per key. -/
abbrev GoMap (β : Type) := List (String × β)

/-- Map read `m[k]` with the comma-ok result. -/
def mapGet {β : Type} (m : GoMap β) (k : String) : Option β :=
  match m with
  | [] => none
  | (k', v) :: rest => if k' = k then some v else mapGet rest k

/-- Map write `m[k] = v`: replaces the entry of `k` or adds one. -/
def mapSet {β : Type} (m : GoMap β) (k : String) (v : β) : GoMap β :=
  match m with
  | [] => [(k, v)]
  | (k', v') :: rest => if k' = k then (k, v) :: rest else (k', v') :: mapSet rest k v

/-- What the libraries and the network answer.
* `urlParse` is `url.Parse` (`none` for a non-nil error);
* `urlString` is `(*url.URL).String`;
* `toLower` is `strings.ToLower`;
* `getDocument n u` is `http.Get(u)` followed by `html.Parse` of the body, for
  the fetch made when the counter `NumURLs` is `n`; `none` when either call
  returns an error;
* `rangeOrder n m` is the order in which `range` visits the entries of the map
  `m` in that same fetch: Go leaves it unspecified, it is some permutation. -/
structure Env where
  urlParse : String → Option URL
  urlString : URL → String
  toLower : String → String
  getDocument : Int → String → Option Node
  rangeOrder : Int → GoMap String → GoMap String
  range_perm : ∀ n m, (rangeOrder n m).Perm m

/-! ## `PageInfo` and `Crawler` -/

/-- The struct `PageInfo`; `URL` is a pointer, `none` is `nil`. -/
structure PageInfo where
  URL : Option URL := none
  Scripts : List String := []
  Images : List String := []
  Files : List String := []
  Links : List String := []
  External : List String := []
deriving DecidableEq, Repr

/-- The struct `Crawler`; `URLInfo = none` is the `nil` map of a crawler on which
`Init` has not succeeded. -/
structure Crawler where
  RestrictDomain : Bool := false
  MaxDepth : Int := 0
  URLInfo : Option (GoMap PageInfo) := none
  NumURLs : Int := 0
deriving DecidableEq, Repr

/-! ## `fetchURL` -/

/-- The test `len(attr.Val) >= 2 && attr.Val[0] == '/' && attr.Val[1] == '/'`
that sets `schemeRelativeURL`. -/
def schemeRelative (val : String) : Bool :=
  match val.data with
  | '/' :: '/' :: _ => true
  | _ => false

/-- The test `attr.Val[0] == '/' && schemeRelativeURL == false`. -/
def rootRelative (val : String) : Bool :=
  match val.data with
  | '/' :: _ => !schemeRelative val
  | _ => false

/-- The string `absoluteURL` of the second branch: `scheme + ":" + attr.Val` for
a scheme-relative value, `attr.Val` otherwise. -/
def absoluteURL (scheme val : String) : String :=
  if schemeRelative val then scheme ++ ":" ++ val else val

/-- The body of the `if len(attr.Val) > 0 && (key == "href" || key == "src")`
statement of `fetchURL`, for an attribute value `val` of an element whose
lower-cased name is `tag`: the write it makes to `links`. -/
def classify (env : Env) (restrictDomain : Bool) (scheme host tag val : String)
    (links : GoMap String) : GoMap String :=
  if rootRelative val then
    mapSet links (env.urlString { Scheme := scheme, Host := host, Path := val }) tag
  else
    match env.urlParse (absoluteURL scheme val) with
    | none => links
    | some parsedLink =>
      if restrictDomain = false then mapSet links (absoluteURL scheme val) tag
      else if parsedLink.Host = host then mapSet links (absoluteURL scheme val) tag
      else mapSet links (absoluteURL scheme val) "external"

/-- One turn of `for _, attr := range n.Attr`. -/
def attrStep (env : Env) (restrictDomain : Bool) (scheme host tag : String)
    (links : GoMap String) (attr : Attribute) : GoMap String :=
  let key := env.toLower attr.Key
  if attr.Val.length > 0 ∧ (key = "href" ∨ key = "src") then
    classify env restrictDomain scheme host tag attr.Val links
  else links

/-- The tags of the `switch tag` of the closure `parse`. -/
def linkTags : List String := ["script", "link", "img", "area", "a"]

mutual
/-- The closure `parse` of `fetchURL`: the node itself, then its children. -/
def parseNode (env : Env) (restrictDomain : Bool) (scheme host : String) :
    Node → GoMap String → GoMap String
  | .mk type data attr children, links =>
    let tag := env.toLower data
    let links :=
      if type = NodeType.ElementNode ∧ tag ∈ linkTags then
        attr.foldl (attrStep env restrictDomain scheme host tag) links
      else links
    parseChildren env restrictDomain scheme host children links
/-- The loop `for child := n.FirstChild; child != nil; child = child.NextSibling`. -/
def parseChildren (env : Env) (restrictDomain : Bool) (scheme host : String) :
    List Node → GoMap String → GoMap String
  | [], links => links
  | child :: rest, links =>
    parseChildren env restrictDomain scheme host rest
      (parseNode env restrictDomain scheme host child links)
end

/-- One turn of `for link, linkType := range links`: the `switch linkType`. -/
def collectStep (pageInfo : PageInfo) (entry : String × String) : PageInfo :=
  let link := entry.1
  let linkType := entry.2
  if linkType = "script" then { pageInfo with Scripts := pageInfo.Scripts ++ [link] }
  else if linkType = "link" then { pageInfo with Files := pageInfo.Files ++ [link] }
  else if linkType = "img" then { pageInfo with Images := pageInfo.Images ++ [link] }
  else if linkType = "external" then { pageInfo with External := pageInfo.External ++ [link] }
  else if linkType = "area" then { pageInfo with Links := pageInfo.Links ++ [link] }
  else if linkType = "a" then { pageInfo with Links := pageInfo.Links ++ [link] }
  else pageInfo

/-- The order `<=` of Go strings on the characters of two strings: the first
difference decides, a prefix comes first. -/
def lexLE : List Char → List Char → Bool
  | [], _ => true
  | _ :: _, [] => false
  | a :: as, b :: bs =>
    if a.toNat < b.toNat then true
    else if b.toNat < a.toNat then false
    else lexLE as bs

/-- The order `a <= b` of Go strings. -/
def strLE (a b : String) : Prop := lexLE a.data b.data = true

instance strLE.decidable (a b : String) : Decidable (strLE a b) := by
  unfold strLE; infer_instance

/-- The call `sort.Strings`: the strings in increasing order. -/
def sortStrings (l : List String) : List String :=
  l.insertionSort strLE

/-- The end of `fetchURL`: the loop over `links`, in the order `order`, and the
sort of `Links`. -/
def collect (order : GoMap String) (pageInfo : PageInfo) : PageInfo :=
  let pageInfo := order.foldl collectStep pageInfo
  { pageInfo with Links := sortStrings pageInfo.Links }

/-- The method `fetchURL`: the crawler after the call, the `PageInfo` and the
status it returns. -/
def fetchURL (env : Env) (c : Crawler) (urlString : String) : Crawler × PageInfo × Bool :=
  let c := { c with NumURLs := c.NumURLs + 1 }
  match env.urlParse urlString with
  | none => (c, {}, false)
  | some parsedURL =>
    let pageInfo : PageInfo := { URL := some parsedURL }
    let host := parsedURL.Host
    let scheme := parsedURL.Scheme
    match env.getDocument c.NumURLs urlString with
    | none => (c, pageInfo, false)
    | some document =>
      let links := parseNode env c.RestrictDomain scheme host document []
      (c, collect (env.rangeOrder c.NumURLs links) pageInfo, true)

/-! ## The five collections -/

/-- The five collections of a `PageInfo`. -/
inductive Category where
  | Scripts | Files | Images | Links | External
deriving DecidableEq, Repr

/-- The collection of a `PageInfo` that a category names. -/
def Category.of (p : PageInfo) : Category → List String
  | .Scripts => p.Scripts
  | .Files => p.Files
  | .Images => p.Images
  | .Links => p.Links
  | .External => p.External

/-- The category of a tag kind as the specification gives it:
script to Scripts, link to Files, img to Images, area and a to Links. -/
def kindCategory (k : String) : Option Category :=
  if k = "script" then some .Scripts
  else if k = "link" then some .Files
  else if k = "img" then some .Images
  else if k = "area" then some .Links
  else if k = "a" then some .Links
  else none

/-- The collection that the `switch linkType` of `fetchURL` appends to. -/
def labelCategory (linkType : String) : Option Category :=
  if linkType = "script" then some .Scripts
  else if linkType = "link" then some .Files
  else if linkType = "img" then some .Images
  else if linkType = "external" then some .External
  else if linkType = "area" then some .Links
  else if linkType = "a" then some .Links
  else none

/-! ## A model of `(*url.URL).String` on a URL of three fields -/

/-- The escaping modes of `net/url` that `String` uses for the host and the path. -/
inductive Encoding where
  | encodePath | encodeHost
deriving DecidableEq, Repr

/-- The function `shouldEscape` of `net/url`, on a byte given as a character. -/
def shouldEscape (c : Char) (mode : Encoding) : Bool :=
  if c.isAlphanum then false
  else if mode = Encoding.encodeHost ∧
      c ∈ ['!', '$', '&', Char.ofNat 39, '(', ')', '*', '+', ',', ';', '=', ':', '[', ']', '<', '>',
        Char.ofNat 34] then
    false
  else if c ∈ ['-', '_', '.', '~'] then false
  else if c ∈ ['$', '&', '+', ',', '/', ':', ';', '=', '?', '@'] then
    match mode with
    | Encoding.encodePath => c == '?'
    | Encoding.encodeHost => true
  else true

/-- The bytes of the UTF-8 encoding of a character: a Go string is a sequence of
bytes. -/
def utf8Bytes (c : Char) : List Nat :=
  let v := c.toNat
  if v < 0x80 then [v]
  else if v < 0x800 then [0xC0 + v / 64, 0x80 + v % 64]
  else if v < 0x10000 then [0xE0 + v / 4096, 0x80 + v / 64 % 64, 0x80 + v % 64]
  else [0xF0 + v / 262144, 0x80 + v / 4096 % 64, 0x80 + v / 64 % 64, 0x80 + v % 64]

/-- The digit of `upperhex`. -/
def upperhex (n : Nat) : Char :=
  if n < 10 then Char.ofNat (48 + n) else Char.ofNat (55 + n)

/-- The function `escape` of `net/url` for the path and host modes: a byte that
`shouldEscape` names becomes `%XX`. -/
def escape (s : String) (mode : Encoding) : String :=
  String.mk (s.data.flatMap fun c => (utf8Bytes c).flatMap fun b =>
    if shouldEscape (Char.ofNat b) mode then ['%', upperhex (b / 16), upperhex (b % 16)]
    else [Char.ofNat b])

/-- Model of `(*url.URL).String` of `net/url` on a URL whose only non-zero
fields are `Scheme`, `Host` and `Path`, such as the URL that `fetchURL` builds
for a root-relative value. -/
def linkString (scheme host path : String) : String :=
  let buf := if scheme ≠ "" then scheme ++ ":" else ""
  let buf :=
    if scheme ≠ "" ∨ host ≠ "" then
      let buf := if host ≠ "" ∨ path ≠ "" then buf ++ "//" else buf
      if host ≠ "" then buf ++ escape host Encoding.encodeHost else buf
    else buf
  let escaped := if path = "*" then "*" else escape path Encoding.encodePath
  let buf :=
    if escaped ≠ "" ∧ escaped.data.head? ≠ some '/' ∧ host ≠ "" then buf ++ "/" else buf
  let buf :=
    if buf = "" ∧ ':' ∈ escaped.data.takeWhile (fun c => c ≠ '/') then buf ++ "./" else buf
  buf ++ escaped

/-! ## `Init` and `InputCheck` -/

/-- The method `Init`: the crawler after the call, the status and the message. -/
def Init (env : Env) (c : Crawler) (crawlURL : String) (restrictDomain : Bool)
    (maxDepth : Int) : Crawler × Bool × String :=
  match env.urlParse crawlURL with
  | none => (c, false, "Failed to parse URL: " ++ crawlURL ++ ".\n")
  | some parsedURL =>
    if parsedURL.Scheme ≠ "http" ∧ parsedURL.Scheme ≠ "https" then
      (c, false,
        "Unsupported scheme: " ++ parsedURL.Scheme ++ ". Supported schemes: http, https.\n")
    else
      ({ c with RestrictDomain := restrictDomain, MaxDepth := maxDepth, URLInfo := some [] },
        true, "Success")

/-- Model of `strconv.ParseBool`: the accepted spellings (`none` for an error). -/
def ParseBool (str : String) : Option Bool :=
  if str ∈ ["1", "t", "T", "TRUE", "true", "True"] then some true
  else if str ∈ ["0", "f", "F", "FALSE", "false", "False"] then some false
  else none

/-- The value of a string of decimal digits read after the value `acc`;
`none` when a character is not a digit. -/
def readDigits : List Char → Nat → Option Nat
  | [], acc => some acc
  | ch :: rest, acc =>
    if 48 ≤ ch.toNat ∧ ch.toNat ≤ 57 then readDigits rest (acc * 10 + (ch.toNat - 48))
    else none

/-- Model of `strconv.Atoi` for a 64-bit `int`: an optional sign, then one or
more decimal digits, of a value from `-2^63` to `2^63 - 1` (`none` for an
error). -/
def Atoi (s : String) : Option Int :=
  let signed : Bool × List Char :=
    match s.data with
    | '-' :: rest => (true, rest)
    | '+' :: rest => (false, rest)
    | rest => (false, rest)
  if signed.2 = [] then none
  else
    match readDigits signed.2 0 with
    | none => none
    | some n =>
      let v : Int := if signed.1 then -(n : Int) else (n : Int)
      if -(2 : Int) ^ 63 ≤ v ∧ v < (2 : Int) ^ 63 then some v else none

/-- The function `InputCheck`. -/
def InputCheck (domainInput depthInput : String) : Bool × Int × String :=
  match Atoi depthInput with
  | none => (false, 0, "Error: max-depth must be an integer.")
  | some depth =>
    if depth < 1 then (false, 0, "Error: max-depth must be greater than or equal to 1.")
    else
      match ParseBool domainInput with
      | none =>
        (false, 0,
          "Error: restrict-to-domain must be an boolean value (e.g., true, false, 1, 0).")
      | some restrictDomain => (restrictDomain, depth, "")

/-! ## `Crawl` -/

/-- The method `Print`: the line it writes; `none` when `u.URL` is `nil`. -/
def PageInfo.Print (u : PageInfo) : Option String :=
  match u.URL with
  | none => none
  | some url =>
    some (url.Host ++ url.Path ++ ". (" ++ toString u.Scripts.length ++ ", " ++
      toString u.Files.length ++ ", " ++ toString u.Images.length ++ ", " ++
      toString u.External.length ++ ")\n")

/-- The method `PrintIndent`: four spaces for every `i` from 1 below `indent`,
then the line of `Print`. -/
def PageInfo.PrintIndent (u : PageInfo) (indent : Int) : Option String :=
  match u.Print with
  | none => none
  | some line => some (String.join (List.replicate (indent - 1).toNat "    ") ++ line)

/-- A run of the crawler: the crawler, what it has written to standard output,
and whether it has stopped on a run-time panic.  `calls` and `visits` are not
in the program: they record the depth and URL of every call of `fetchURL` made
by `crawl`, and of every call of `PrintIndent`. -/
structure Run where
  c : Crawler
  out : List String := []
  calls : List (Int × String) := []
  visits : List (Int × String) := []
  panicked : Bool := false

/-- The statement `if pageInfo, hasInfo = c.URLInfo[urlToCrawl]; hasInfo == false`
of `crawl` with its body: the run after it, `pageInfo` and `hasInfo`.  A write
to a `nil` map and a write through a `nil` `pageInfo.URL` panic. -/
def lookupOrFetch (env : Env) (r : Run) (urlToCrawl : String) (depth : Int) :
    Run × PageInfo × Bool :=
  match r.c.URLInfo.bind (fun m => mapGet m urlToCrawl) with
  | some pageInfo => (r, pageInfo, true)
  | none =>
    let res := fetchURL env r.c urlToCrawl
    let r : Run := { r with c := res.1, calls := r.calls ++ [(depth, urlToCrawl)] }
    let pageInfo := res.2.1
    let hasInfo := res.2.2
    if hasInfo = true then
      match r.c.URLInfo with
      | none => ({ r with panicked := true }, pageInfo, hasInfo)
      | some m =>
        ({ r with c := { r.c with URLInfo := some (mapSet m urlToCrawl pageInfo) } },
          pageInfo, hasInfo)
    else
      match pageInfo.URL with
      | none => ({ r with panicked := true }, pageInfo, hasInfo)
      | some url =>
        (r, { pageInfo with
              URL := some { url with Path := url.Path ++ " -> Failed to Fetch (!!)" } },
          hasInfo)

/-- The method `crawl`, by recursion on a bound `fuel` of the number of nested
calls; `crawl` below gives it `MaxDepth + 1 - depth`, which is zero exactly when
`depth > MaxDepth`, where the method returns at once.  A run that has panicked
executes nothing more. -/
def crawlN (env : Env) : Nat → Run → String → Int → Run
  | 0, r, _, _ => r
  | fuel + 1, r, crawlURL, depth =>
    if r.panicked then r
    else if depth > r.c.MaxDepth then r
    else
      match env.urlParse crawlURL with
      | none => r
      | some parsedURL =>
        let urlToCrawl := env.urlString parsedURL
        let res := lookupOrFetch env r urlToCrawl depth
        let r := res.1
        let pageInfo := res.2.1
        let hasInfo := res.2.2
        if r.panicked then r
        else if hasInfo ≠ true then r
        else
          match pageInfo.PrintIndent depth with
          | none => { r with panicked := true }
          | some line =>
            let r : Run :=
              { r with out := r.out ++ [line], visits := r.visits ++ [(depth, urlToCrawl)] }
            if depth ≠ r.c.MaxDepth then
              pageInfo.Links.foldl (fun r link => crawlN env fuel r link (depth + 1)) r
            else r

/-- The method `crawl`. -/
def crawl (env : Env) (r : Run) (crawlURL : String) (depth : Int) : Run :=
  crawlN env (r.c.MaxDepth + 1 - depth).toNat r crawlURL depth

/-- The method `Crawl`. -/
def Crawl (env : Env) (r : Run) (crawlURL : String) : Run :=
  crawl env r crawlURL 1

/-- The crawler of `var crawler Crawler` followed by a call of `Init`, as in
`main` and in the tests: a fresh crawler. -/
def freshCrawler (env : Env) (crawlURL : String) (restrictDomain : Bool) (maxDepth : Int) :
    Crawler :=
  (Init env {} crawlURL restrictDomain maxDepth).1

/-! ## A small web for examples -/

/-- What `url.Parse` returns on the strings of the examples; every other string
is refused. -/
def tableParse (s : String) : Option URL :=
  mapGet
    [("http://example.com/", { Scheme := "http", Host := "example.com", Path := "/" }),
     ("http://example.com/a", { Scheme := "http", Host := "example.com", Path := "/a" }),
     ("http://example.com/b", { Scheme := "http", Host := "example.com", Path := "/b" }),
     ("http://example.com/f", { Scheme := "http", Host := "example.com", Path := "/f" }),
     ("http://example.com/abc.jpg",
        { Scheme := "http", Host := "example.com", Path := "/abc.jpg" }),
     ("http://other.org/x", { Scheme := "http", Host := "other.org", Path := "/x" }),
     ("http://random.com", { Scheme := "http", Host := "random.com" }),
     ("https://random.com", { Scheme := "https", Host := "random.com" }),
     ("ftp://random.com", { Scheme := "ftp", Host := "random.com" }),
     ("foo", { Path := "foo" }),
     ("http://127.0.0.1/", { Scheme := "http", Host := "127.0.0.1", Path := "/" }),
     ("http://127.0.0.1:8080/", { Scheme := "http", Host := "127.0.0.1:8080", Path := "/" }),
     ("http://EXAMPLE.com/x", { Scheme := "http", Host := "EXAMPLE.com", Path := "/x" })] s

/-- An element node without children. -/
def element (tag key val : String) : Node :=
  .mk .ElementNode tag [{ Key := key, Val := val }] []

/-- The tree that `html.Parse` builds around the elements of a body. -/
def htmlPage (body : List Node) : Node :=
  .mk .DocumentNode "" []
    [.mk .ElementNode "html" [] [.mk .ElementNode "head" [] [], .mk .ElementNode "body" [] body]]

/-- An environment for examples: `url.Parse` is `tableParse`, a URL of three
fields is written by `linkString`, `strings.ToLower` lowers the ASCII letters,
the pages of `pages` are served whenever they are asked for and every other
fetch fails, and `range` visits a map in the order of insertion. -/
def demoEnv (pages : GoMap Node) : Env where
  urlParse := tableParse
  urlString := fun u => linkString u.Scheme u.Host u.Path
  toLower := fun s => String.mk (s.data.map Char.toLower)
  getDocument := fun _ u => mapGet pages u
  rangeOrder := fun _ m => m
  range_perm := fun _ m => List.Perm.refl m

/-! ## Notions of the specification -/

/-- A value that begins with exactly one `/`: its first character is `/`, and it
has length 1 or its second character is not `/`. -/
def beginsWithOneSlash (v : String) : Prop :=
  v.data.head? = some '/' ∧ (v.length = 1 ∨ v.data.get? 1 ≠ some '/')

instance beginsWithOneSlash.decidable (v : String) : Decidable (beginsWithOneSlash v) := by
  unfold beginsWithOneSlash; infer_instance

/-- The category that the specification gives to a value that is not
root-relative, of a tag of category `cat`, whose URL has the host `linkHost`, on
a page of host `host`. -/
def expectedCategory (restrictDomain : Bool) (linkHost host : String) (cat : Category) :
    Category :=
  if restrictDomain = false then cat
  else if linkHost = host then cat
  else Category.External

/-- No byte of `s` is escaped by `escape` in the mode `mode`. -/
def unescaped (mode : Encoding) (s : String) : Prop :=
  ∀ c ∈ s.data, shouldEscape c mode = false

instance unescaped.decidable (mode : Encoding) (s : String) : Decidable (unescaped mode s) := by
  unfold unescaped; infer_instance

/-- A site on which `http://example.com/f` cannot be fetched: the seed page
links to `/a` and `/f`, and the page `/a` links to `/f`. -/
def failingSite : GoMap Node :=
  [("http://example.com/",
      htmlPage [element "a" "href" "/a", element "a" "href" "/f"]),
   ("http://example.com/a", htmlPage [element "a" "href" "/f"])]

/-- A site whose seed page links to `/a` and `/b`; the page `/a` links back to
the seed and `/b` cannot be fetched. -/
def smallSite : GoMap Node :=
  [("http://example.com/",
      htmlPage [element "a" "href" "/b", element "a" "href" "/a",
        element "img" "src" "/abc.jpg"]),
   ("http://example.com/a", htmlPage [element "a" "href" "/"])]

/-- The run that starts on a fresh crawler. -/
def freshRun (env : Env) (crawlURL : String) (restrictDomain : Bool) (maxDepth : Int) : Run :=
  { c := freshCrawler env crawlURL restrictDomain maxDepth }

/-- The run `r'` continues the run `r` with the same configuration, and every
call of `fetchURL` and every visit that it adds is at a depth from `d` to
`MaxDepth`. -/
def Within (d : Int) (r r' : Run) : Prop :=
  r'.c.MaxDepth = r.c.MaxDepth ∧ r'.c.RestrictDomain = r.c.RestrictDomain ∧
    (∀ e ∈ r'.calls, e ∈ r.calls ∨ (d ≤ e.1 ∧ e.1 ≤ r.c.MaxDepth)) ∧
    (∀ e ∈ r'.visits, e ∈ r.visits ∨ (d ≤ e.1 ∧ e.1 ≤ r.c.MaxDepth))

/-- The normalized form of a URL string, as `crawl` computes it: the string of
the parsed URL; `none` when the string does not parse. -/
def normalize (env : Env) (crawlURL : String) : Option String :=
  (env.urlParse crawlURL).map env.urlString

/-- The URL strings that the loop over `links`, in the order `order`, takes as
links to pages: the keys whose label is `area` or `a`. -/
def internalLinks (order : GoMap String) : List String :=
  (order.filter fun e => e.2 = "area" ∨ e.2 = "a").map Prod.fst

/-- Every `PageInfo` of the cache has its `Links` in increasing order. -/
def CacheSorted (r : Run) : Prop :=
  ∀ m, r.c.URLInfo = some m → ∀ e ∈ m, List.Sorted strLE e.2.Links

/-- A syntactically valid absolute URL: a string that `url.Parse` accepts, with
a scheme and a host that are not empty. -/
def validAbsolute (env : Env) (s : String) : Prop :=
  match env.urlParse s with
  | none => False
  | some u => u.Scheme ≠ "" ∧ u.Host ≠ ""

instance validAbsolute.decidable (env : Env) (s : String) : Decidable (validAbsolute env s) := by
  unfold validAbsolute
  cases env.urlParse s <;> infer_instance

/-- A site whose seed page has the relative link `foo`. -/
def relativeSite : GoMap Node :=
  [("http://example.com/", htmlPage [element "a" "href" "foo"])]

/-- The gate of the attribute loop of `fetchURL`, as the specification words it:
the key, lower-cased, is `href` or `src`, the value is not empty, and a value
that is not root-relative resolves to a string that parses as a URL. -/
def extractionGate (env : Env) (scheme : String) (attr : Attribute) : Prop :=
  (env.toLower attr.Key = "href" ∨ env.toLower attr.Key = "src") ∧ attr.Val.length > 0 ∧
    (beginsWithOneSlash attr.Val ∨ (env.urlParse (absoluteURL scheme attr.Val)).isSome)

/-- From the run `r` to the run `r'` the cache has only grown: a `nil` cache
stays `nil`, every entry of the cache of `r` is in the cache of `r'` with the
same `PageInfo`, and every other entry of the cache of `r'` is under a URL
string that `crawl` has fetched in between, with the `PageInfo` of a successful
call of `fetchURL` on that string. -/
def CacheGrows (env : Env) (r r' : Run) : Prop :=
  ∃ ext, r'.calls = r.calls ++ ext ∧
    (r.c.URLInfo = none → r'.c.URLInfo = none) ∧
    ∀ m, r.c.URLInfo = some m → ∃ m', r'.c.URLInfo = some m' ∧
      (∀ k v, mapGet m k = some v → mapGet m' k = some v) ∧
      (∀ k v, mapGet m' k = some v → mapGet m k = some v ∨
        ((∃ d, (d, k) ∈ ext) ∧ ∃ c, (fetchURL env c k).2 = (v, true)))

/-- The method `crawl` run with a bound on the number of nested calls: `none`
when the bound is reached before the method has returned. -/
def crawlFuel (env : Env) : Nat → Run → String → Int → Option Run
  | 0, _, _, _ => none
  | fuel + 1, r, crawlURL, depth =>
    if r.panicked then some r
    else if depth > r.c.MaxDepth then some r
    else
      match env.urlParse crawlURL with
      | none => some r
      | some parsedURL =>
        let urlToCrawl := env.urlString parsedURL
        let res := lookupOrFetch env r urlToCrawl depth
        let r := res.1
        let pageInfo := res.2.1
        let hasInfo := res.2.2
        if r.panicked then some r
        else if hasInfo ≠ true then some r
        else
          match pageInfo.PrintIndent depth with
          | none => some { r with panicked := true }
          | some line =>
            let r : Run :=
              { r with out := r.out ++ [line], visits := r.visits ++ [(depth, urlToCrawl)] }
            if depth ≠ r.c.MaxDepth then
              pageInfo.Links.foldlM (fun r link => crawlFuel env fuel r link (depth + 1)) r
            else some r

/-- The strings that `(*url.URL).String` writes for parsed URLs parse again. -/
def RoundTrip (env : Env) : Prop :=
  ∀ s u, env.urlParse s = some u → (env.urlParse (env.urlString u)).isSome

/-- A run on a crawler on which `Init` has succeeded: no panic so far, a cache
that is not `nil`, and a URL in every `PageInfo` of the cache. -/
def Started (r : Run) : Prop :=
  r.panicked = false ∧ ∃ m, r.c.URLInfo = some m ∧ ∀ e ∈ m, e.2.URL ≠ none

/-- The entry that one turn of the attribute loop writes to `links`, if it
writes one: the key and the label. -/
def attrWrite (env : Env) (restrictDomain : Bool) (scheme host tag : String)
    (attr : Attribute) : Option (String × String) :=
  if attr.Val.length > 0 ∧ (env.toLower attr.Key = "href" ∨ env.toLower attr.Key = "src") then
    if rootRelative attr.Val then
      some (env.urlString { Scheme := scheme, Host := host, Path := attr.Val }, tag)
    else
      match env.urlParse (absoluteURL scheme attr.Val) with
      | none => none
      | some parsedLink =>
        some (absoluteURL scheme attr.Val,
          if restrictDomain = false then tag
          else if parsedLink.Host = host then tag
          else "external")
  else none

mutual
/-- The entries that the walk of a node writes, in the order of the visit: those
of the node itself, then those of its children. -/
def nodeWrites (env : Env) (restrictDomain : Bool) (scheme host : String) :
    Node → List (String × String)
  | .mk type data attr children =>
    (if type = NodeType.ElementNode ∧ env.toLower data ∈ linkTags then
        attr.filterMap (attrWrite env restrictDomain scheme host (env.toLower data))
      else []) ++
      childrenWrites env restrictDomain scheme host children
/-- The entries that the walk of a list of siblings writes. -/
def childrenWrites (env : Env) (restrictDomain : Bool) (scheme host : String) :
    List Node → List (String × String)
  | [] => []
  | child :: rest =>
    nodeWrites env restrictDomain scheme host child ++
      childrenWrites env restrictDomain scheme host rest
end

/-- The label of the last entry written under the key `k`. -/
def lastWrite (writes : List (String × String)) (k : String) : Option String :=
  (writes.reverse.find? (fun w => w.1 = k)).map Prod.snd

/-- A page on which the URL `/x` is the value of an `a` and then of an `img`. -/
def twiceSite : GoMap Node :=
  [("http://example.com/",
      htmlPage [element "a" "href" "/x", element "img" "src" "/x"])]

/-! ## Lemmas on maps and on the loop over `links` -/

theorem mapSet_keys {β : Type} (m : GoMap β) (k : String) (v : β) :
    (mapSet m k v).map Prod.fst =
      if k ∈ m.map Prod.fst then m.map Prod.fst else m.map Prod.fst ++ [k] := by
  induction m with
  | nil => simp [mapSet]
  | cons e rest ih =>
    obtain ⟨k', v'⟩ := e
    by_cases h : k' = k
    · subst h; simp [mapSet]
    · have h' : ¬ k = k' := fun e => h e.symm
      simp only [mapSet, if_neg h, List.map_cons, ih, List.mem_cons, h', false_or]
      split <;> simp

theorem mapSet_nodup {β : Type} (m : GoMap β) (k : String) (v : β)
    (h : (m.map Prod.fst).Nodup) : ((mapSet m k v).map Prod.fst).Nodup := by
  rw [mapSet_keys]
  split
  · exact h
  · rename_i hk
    exact List.Nodup.append h (List.nodup_singleton k) (by simpa using hk)

theorem mem_mapSet_self {β : Type} (m : GoMap β) (k : String) (v : β) :
    (k, v) ∈ mapSet m k v := by
  induction m with
  | nil => simp [mapSet]
  | cons e rest ih =>
    obtain ⟨k', v'⟩ := e
    by_cases h : k' = k
    · simp [mapSet, h]
    · simp [mapSet, h, ih]

theorem nodup_keys_unique {β : Type} (m : GoMap β) (h : (m.map Prod.fst).Nodup)
    (k : String) (v w : β) (hv : (k, v) ∈ m) (hw : (k, w) ∈ m) : v = w := by
  induction m with
  | nil => simp at hv
  | cons e rest ih =>
    obtain ⟨k', v'⟩ := e
    simp only [List.map_cons, List.nodup_cons, List.mem_map, Prod.exists, exists_and_right,
      exists_eq_right, not_exists] at h
    simp only [List.mem_cons, Prod.mk.injEq] at hv hw
    rcases hv with ⟨rfl, rfl⟩ | hv
    · rcases hw with ⟨_, rfl⟩ | hw
      · rfl
      · exact absurd hw (h.1 w)
    · rcases hw with ⟨rfl, rfl⟩ | hw
      · exact absurd hv (h.1 v)
      · exact ih h.2 hv hw

theorem kindCategory_label (k : String) (cat : Category) (h : kindCategory k = some cat) :
    labelCategory k = some cat := by
  unfold kindCategory at h
  unfold labelCategory
  split_ifs at h with h1 h2 h3 h4 h5 <;> simp_all

theorem kindCategory_ne_external (k : String) (cat : Category)
    (h : kindCategory k = some cat) : cat ≠ Category.External := by
  intro hc
  subst hc
  unfold kindCategory at h
  split_ifs at h <;> simp at h

theorem mem_collectStep (p : PageInfo) (e : String × String) (cat : Category) (x : String) :
    x ∈ cat.of (collectStep p e) ↔
      x ∈ cat.of p ∨ (e.1 = x ∧ labelCategory e.2 = some cat) := by
  unfold collectStep labelCategory
  obtain ⟨k, v⟩ := e
  simp only
  split_ifs <;> cases cat <;> simp_all [Category.of] <;>
    exact or_congr_right eq_comm

theorem mem_foldl_collectStep (l : GoMap String) (p : PageInfo) (cat : Category) (x : String) :
    x ∈ cat.of (l.foldl collectStep p) ↔
      x ∈ cat.of p ∨ ∃ label, (x, label) ∈ l ∧ labelCategory label = some cat := by
  induction l generalizing p with
  | nil => simp
  | cons e rest ih =>
    obtain ⟨k, v⟩ := e
    rw [List.foldl_cons, ih, mem_collectStep]
    constructor
    · rintro ((h | ⟨rfl, h⟩) | ⟨label, h1, h2⟩)
      · exact Or.inl h
      · exact Or.inr ⟨v, by simp, h⟩
      · exact Or.inr ⟨label, by simp [h1], h2⟩
    · rintro (h | ⟨label, h1, h2⟩)
      · exact Or.inl (Or.inl h)
      · simp only [List.mem_cons, Prod.mk.injEq] at h1
        rcases h1 with ⟨rfl, rfl⟩ | h1
        · exact Or.inl (Or.inr ⟨rfl, h2⟩)
        · exact Or.inr ⟨label, h1, h2⟩

theorem mem_sortStrings (l : List String) (x : String) : x ∈ sortStrings l ↔ x ∈ l :=
  (List.perm_insertionSort strLE l).mem_iff

theorem mem_collect (order : GoMap String) (p : PageInfo) (cat : Category) (x : String) :
    x ∈ cat.of (collect order p) ↔
      x ∈ cat.of p ∨ ∃ label, (x, label) ∈ order ∧ labelCategory label = some cat := by
  rw [← mem_foldl_collectStep]
  cases cat <;> simp [collect, Category.of, mem_sortStrings]

/-- After the write `links[k] = label`, the loop over the map, in whatever
order, puts `k` in the collection of `label` and in no other. -/
theorem collect_written (links order : GoMap String) (k label : String) (cat : Category)
    (url : Option URL) (hkeys : (links.map Prod.fst).Nodup)
    (horder : order.Perm (mapSet links k label)) (hlabel : labelCategory label = some cat) :
    k ∈ cat.of (collect order { URL := url }) ∧
      ∀ other, other ≠ cat → k ∉ other.of (collect order { URL := url }) := by
  have hin : (k, label) ∈ order := horder.mem_iff.mpr (mem_mapSet_self links k label)
  have hnd : (order.map Prod.fst).Nodup :=
    (horder.map Prod.fst).nodup_iff.mpr (mapSet_nodup links k label hkeys)
  refine ⟨(mem_collect _ _ _ _).mpr (Or.inr ⟨label, hin, hlabel⟩), ?_⟩
  intro other hne hmem
  rcases (mem_collect _ _ _ _).mp hmem with h | ⟨label', h1, h2⟩
  · cases other <;> simp [Category.of] at h
  · have := nodup_keys_unique order hnd k label label' hin h1
    subst this
    rw [hlabel] at h2
    exact hne (Option.some.inj h2).symm

theorem rootRelative_iff (v : String) : rootRelative v = true ↔ beginsWithOneSlash v := by
  obtain ⟨l⟩ := v
  unfold rootRelative schemeRelative beginsWithOneSlash
  match l with
  | [] => simp
  | [a] => by_cases h : a = '/' <;> simp [h, String.length]
  | a :: b :: rest =>
    by_cases h : a = '/' <;> by_cases h' : b = '/' <;> simp [h, h', String.length]

/-! ## Classification -/

/-- C1: an attribute `href` or `src` of a `script`, `link`, `img`, `area` or `a`
element whose value is not root-relative and whose resolved URL parses is put
by `fetchURL` in the collection of its tag when `RestrictDomain` is false or
the parsed host is the host of the page, and in `External` when
`RestrictDomain` is true and the hosts differ; it is in no other collection. -/
theorem classify_absolute (env : Env) (restrictDomain : Bool) (scheme host tag : String)
    (attr : Attribute) (links order : GoMap String) (url : Option URL) (cat : Category)
    (parsedLink : URL)
    (hkind : kindCategory tag = some cat)
    (hkey : env.toLower attr.Key = "href" ∨ env.toLower attr.Key = "src")
    (hval : attr.Val.length > 0)
    (hroot : ¬ beginsWithOneSlash attr.Val)
    (hparse : env.urlParse (absoluteURL scheme attr.Val) = some parsedLink)
    (hkeys : (links.map Prod.fst).Nodup)
    (horder : order.Perm (attrStep env restrictDomain scheme host tag links attr)) :
    absoluteURL scheme attr.Val ∈
        (expectedCategory restrictDomain parsedLink.Host host cat).of
          (collect order { URL := url }) ∧
      ∀ other, other ≠ expectedCategory restrictDomain parsedLink.Host host cat →
        absoluteURL scheme attr.Val ∉ other.of (collect order { URL := url }) := by
  have hr : rootRelative attr.Val = false := by
    cases h : rootRelative attr.Val
    · rfl
    · exact absurd ((rootRelative_iff _).mp h) hroot
  have hlab := kindCategory_label tag cat hkind
  have hstep : attrStep env restrictDomain scheme host tag links attr =
      mapSet links (absoluteURL scheme attr.Val)
        (if restrictDomain = false then tag else if parsedLink.Host = host then tag
          else "external") := by
    simp only [attrStep, hval, hkey, and_self, if_true, classify, hr, hparse]
    split_ifs <;> simp_all
  rw [hstep] at horder
  refine collect_written links order _ _ _ url hkeys horder ?_
  unfold expectedCategory
  split_ifs
  · exact hlab
  · exact hlab
  · rfl

theorem classify_absolute_witness :
    "http://other.org/x" ∈
        (collect [("http://other.org/x", "external")] {}).External ∧
      "http://other.org/x" ∉ (collect [("http://other.org/x", "external")] {}).Scripts := by
  have h := classify_absolute (demoEnv []) true "http" "example.com" "script"
    { Key := "src", Val := "http://other.org/x" } [] [("http://other.org/x", "external")] none
    Category.Scripts { Scheme := "http", Host := "other.org", Path := "/x" }
    (by decide) (by decide) (by decide) (by decide) (by decide) (by decide) (by decide)
  exact ⟨h.1, h.2 Category.Scripts (by decide)⟩

/-- C2: an attribute `href` or `src` whose value begins with exactly one `/` is
put by `fetchURL` in the collection of its tag alone, whatever `RestrictDomain`
is: the URL written for it is in that collection, in no other, and so never in
`External`. -/
theorem classify_root_relative (env : Env) (restrictDomain : Bool) (scheme host tag : String)
    (attr : Attribute) (links order : GoMap String) (url : Option URL) (cat : Category)
    (hkind : kindCategory tag = some cat)
    (hkey : env.toLower attr.Key = "href" ∨ env.toLower attr.Key = "src")
    (hroot : beginsWithOneSlash attr.Val)
    (hkeys : (links.map Prod.fst).Nodup)
    (horder : order.Perm (attrStep env restrictDomain scheme host tag links attr)) :
    env.urlString { Scheme := scheme, Host := host, Path := attr.Val } ∈
        cat.of (collect order { URL := url }) ∧
      (∀ other, other ≠ cat →
        env.urlString { Scheme := scheme, Host := host, Path := attr.Val } ∉
          other.of (collect order { URL := url })) ∧
      env.urlString { Scheme := scheme, Host := host, Path := attr.Val } ∉
        (collect order { URL := url }).External := by
  have hr : rootRelative attr.Val = true := (rootRelative_iff _).mpr hroot
  have hval : attr.Val.length > 0 := by
    obtain ⟨h, _⟩ := hroot
    rcases hv : attr.Val with ⟨l⟩
    rw [hv] at h
    cases l with
    | nil => simp at h
    | cons a rest => simp [String.length]
  have hstep : attrStep env restrictDomain scheme host tag links attr =
      mapSet links (env.urlString { Scheme := scheme, Host := host, Path := attr.Val }) tag := by
    simp only [attrStep, hval, hkey, and_self, if_true, classify, hr]
  rw [hstep] at horder
  have h := collect_written links order _ tag cat url hkeys horder
    (kindCategory_label tag cat hkind)
  exact ⟨h.1, h.2, h.2 Category.External (kindCategory_ne_external tag cat hkind).symm⟩

theorem classify_root_relative_witness :
    "http://example.com/abc.jpg" ∈
        (collect [("http://example.com/abc.jpg", "img")] {}).Images ∧
      "http://example.com/abc.jpg" ∉
        (collect [("http://example.com/abc.jpg", "img")] {}).External := by
  have h := classify_root_relative (demoEnv []) true "http" "example.com" "img"
    { Key := "src", Val := "/abc.jpg" } [] [("http://example.com/abc.jpg", "img")] none
    Category.Images (by decide) (by decide) (by decide) (by decide) (by decide)
  exact ⟨h.1, h.2.2⟩

/-! ## The URL string of a root-relative value -/

theorem shouldEscape_ascii (c : Char) (mode : Encoding) (h : shouldEscape c mode = false) :
    c.toNat < 128 := by
  unfold shouldEscape at h
  split_ifs at h with h1 h2 h3 h4
  · simp only [Char.isAlphanum, Char.isAlpha, Char.isUpper, Char.isLower, Char.isDigit,
      Bool.or_eq_true, Bool.and_eq_true, decide_eq_true_eq] at h1
    rcases h1 with (⟨_, h1⟩ | ⟨_, h1⟩) | ⟨_, h1⟩
    · exact Nat.lt_of_le_of_lt (show c.toNat ≤ 90 from h1) (by decide)
    · exact Nat.lt_of_le_of_lt (show c.toNat ≤ 122 from h1) (by decide)
    · exact Nat.lt_of_le_of_lt (show c.toNat ≤ 57 from h1) (by decide)
  · obtain ⟨_, h2⟩ := h2
    simp only [List.mem_cons, List.mem_singleton, List.not_mem_nil, or_false] at h2
    rcases h2 with h | h | h | h | h | h | h | h | h | h | h | h | h | h | h | h | h <;>
      · subst h; decide
  · simp only [List.mem_cons, List.mem_singleton, List.not_mem_nil, or_false] at h3
    rcases h3 with h | h | h | h <;>
      · subst h; decide
  · simp only [List.mem_cons, List.mem_singleton, List.not_mem_nil, or_false] at h4
    rcases h4 with h | h | h | h | h | h | h | h | h | h <;>
      · subst h; decide

theorem escape_unescaped (mode : Encoding) (s : String) (h : unescaped mode s) :
    escape s mode = s := by
  obtain ⟨l⟩ := s
  unfold unescaped at h
  simp only at h
  unfold escape
  congr 1
  simp only
  induction l with
  | nil => rfl
  | cons c rest ih =>
    have hc : shouldEscape c mode = false := h c (by simp)
    have hlt := shouldEscape_ascii c mode hc
    have hb : utf8Bytes c = [c.toNat] := by simp [utf8Bytes, hlt]
    have hof : Char.ofNat c.toNat = c := Char.ofNat_toNat c
    rw [List.flatMap_cons, ih (fun d hd => h d (by simp [hd]))]
    simp [hb, hof, hc]

theorem append_ne_empty (a b : String) (h : a ≠ "") : a ++ b ≠ "" := by
  obtain ⟨la⟩ := a
  intro hc
  have hd := congrArg String.data hc
  simp only [String.data_append] at hd
  have : la = [] := (List.append_eq_nil.mp hd).1
  exact h (by rw [this])

theorem linkString_plain (s h v : String) (hroot : beginsWithOneSlash v) (hs : s ≠ "")
    (hh : unescaped Encoding.encodeHost h) (hv : unescaped Encoding.encodePath v) :
    linkString s h v = s ++ "://" ++ h ++ v := by
  have eh := escape_unescaped _ h hh
  have ev := escape_unescaped _ v hv
  obtain ⟨hhead, _⟩ := hroot
  have hv0 : v ≠ "" := by
    rintro rfl
    simp at hhead
  have hstar : v ≠ "*" := by
    rintro rfl
    simp at hhead
  have hbuf : s ++ "://" ≠ "" := append_ne_empty s "://" hs
  have hbuf' : s ++ "://" ++ h ≠ "" := append_ne_empty _ h hbuf
  have hassoc : s ++ ":" ++ "//" = s ++ "://" := by
    rw [String.append_assoc]; rfl
  unfold linkString
  simp only [hs, ne_eq, not_false_eq_true, if_true, true_or, hv0, or_true, hstar, if_false,
    eh, ev, hhead, not_true_eq_false, false_and, and_false]
  by_cases h0 : h = ""
  · subst h0
    simp [hbuf, hassoc]
  · simp [h0, hbuf', hassoc]

/-- C3 (as amended): for a value `v` that begins with exactly one `/`, the URL
string that `fetchURL` records is the string of the URL of scheme `s`, host `h`
and path `v`; when `s` is not empty and `net/url` escapes no byte of `h` as a
host and no byte of `v` as a path, that string is `s + "://" + h + v`. -/
theorem root_relative_string (env : Env) (restrictDomain : Bool) (s h tag : String)
    (attr : Attribute) (links : GoMap String)
    (hstr : env.urlString { Scheme := s, Host := h, Path := attr.Val } =
      linkString s h attr.Val)
    (hkey : env.toLower attr.Key = "href" ∨ env.toLower attr.Key = "src")
    (hroot : beginsWithOneSlash attr.Val) (hs : s ≠ "")
    (hh : unescaped Encoding.encodeHost h) (hv : unescaped Encoding.encodePath attr.Val) :
    attrStep env restrictDomain s h tag links attr =
      mapSet links (s ++ "://" ++ h ++ attr.Val) tag := by
  have hr : rootRelative attr.Val = true := (rootRelative_iff _).mpr hroot
  have hval : attr.Val.length > 0 := by
    obtain ⟨h1, _⟩ := hroot
    rcases hv' : attr.Val with ⟨l⟩
    rw [hv'] at h1
    cases l with
    | nil => simp at h1
    | cons a rest => simp [String.length]
  simp only [attrStep, hval, hkey, and_self, if_true, classify, hr, hstr,
    linkString_plain s h attr.Val hroot hs hh hv]

theorem root_relative_string_witness :
    attrStep (demoEnv []) true "http" "example.com" "img" []
        { Key := "src", Val := "/abc.jpg" } =
      mapSet [] ("http" ++ "://" ++ "example.com" ++ "/abc.jpg") "img" :=
  root_relative_string (demoEnv []) true "http" "example.com" "img"
    { Key := "src", Val := "/abc.jpg" } [] rfl (by decide) (by decide) (by decide)
    (by decide) (by decide)

/-- C3 (counterexample): for the value `/a b` of an `href` on a page of scheme
`http` and host `example.com`, `fetchURL` records `http://example.com/a%20b`,
which is not `http` + `://` + `example.com` + `/a b`. -/
theorem root_relative_string_counterexample :
    beginsWithOneSlash "/a b" ∧
      attrStep (demoEnv []) false "http" "example.com" "a" [] { Key := "href", Val := "/a b" } =
        [("http://example.com/a%20b", "a")] ∧
      "http://example.com/a%20b" ≠ "http" ++ "://" ++ "example.com" ++ "/a b" := by
  decide

/-! ## `Init` and `InputCheck` -/

/-- C4: `Init` returns false when the seed URL does not parse and when its
scheme is neither `http` nor `https`; it returns true with the message
`Success` when the seed URL parses with the scheme `http` or `https`. -/
theorem Init_status (env : Env) (c : Crawler) (crawlURL : String) (restrictDomain : Bool)
    (maxDepth : Int) :
    (env.urlParse crawlURL = none →
      (Init env c crawlURL restrictDomain maxDepth).2.1 = false) ∧
    (∀ u, env.urlParse crawlURL = some u → u.Scheme ≠ "http" → u.Scheme ≠ "https" →
      (Init env c crawlURL restrictDomain maxDepth).2.1 = false) ∧
    (∀ u, env.urlParse crawlURL = some u → u.Scheme = "http" ∨ u.Scheme = "https" →
      (Init env c crawlURL restrictDomain maxDepth).2 = (true, "Success")) := by
  refine ⟨?_, ?_, ?_⟩
  · intro h
    simp [Init, h]
  · intro u h h1 h2
    simp [Init, h, h1, h2]
  · intro u h hs
    rcases hs with hs | hs <;> simp [Init, h, hs]

theorem Init_status_witness :
    (Init (demoEnv []) {} "ftp://random.com" true 1).2.1 = false ∧
      (Init (demoEnv []) {} "http://random.com" true 1).2 = (true, "Success") ∧
      (Init (demoEnv []) {} "https://random.com" true 1).2 = (true, "Success") ∧
      (Init (demoEnv []) {} "::" true 1).2.1 = false :=
  ⟨(Init_status (demoEnv []) {} "ftp://random.com" true 1).2.1 _ rfl (by decide) (by decide),
    (Init_status (demoEnv []) {} "http://random.com" true 1).2.2 _ rfl (by decide),
    (Init_status (demoEnv []) {} "https://random.com" true 1).2.2 _ rfl (by decide),
    (Init_status (demoEnv []) {} "::" true 1).1 rfl⟩

/-- C5 (counterexample): with `maxDepth = 0`, `Init` on the seed
`http://random.com` returns true. -/
theorem Init_maxDepth_counterexample :
    (0 : Int) < 1 ∧ (Init (demoEnv []) {} "http://random.com" true 0).2.1 = true := by
  decide

/-- C5 (as amended): a depth argument that reads as an integer below 1 is
refused by `InputCheck`, which returns `(false, 0, msg)` with a non-empty
message; `Init` does not look at `maxDepth`: its status and message are the same
for every `maxDepth`. -/
theorem maxDepth_checked_by_InputCheck (env : Env) (c : Crawler) (crawlURL : String)
    (restrictDomain : Bool) (maxDepth maxDepth' : Int) (domainInput depthInput : String)
    (d : Int) (hd : Atoi depthInput = some d) (hlt : d < 1) :
    InputCheck domainInput depthInput =
        (false, 0, "Error: max-depth must be greater than or equal to 1.") ∧
      (InputCheck domainInput depthInput).2.2 ≠ "" ∧
      (Init env c crawlURL restrictDomain maxDepth).2 =
        (Init env c crawlURL restrictDomain maxDepth').2 := by
  refine ⟨by simp [InputCheck, hd, hlt], by simp [InputCheck, hd, hlt], ?_⟩
  unfold Init
  cases env.urlParse crawlURL with
  | none => rfl
  | some u => simp only; split_ifs <;> rfl

theorem maxDepth_checked_by_InputCheck_witness :
    InputCheck "true" "0" =
        (false, 0, "Error: max-depth must be greater than or equal to 1.") ∧
      (InputCheck "true" "0").2.2 ≠ "" ∧
      (Init (demoEnv []) {} "http://random.com" true 0).2 =
        (Init (demoEnv []) {} "http://random.com" true 1).2 :=
  maxDepth_checked_by_InputCheck (demoEnv []) {} "http://random.com" true 0 1 "true" "0" 0
    (by decide) (by decide)

/-! ## The traversal -/

/-- C6 (failing input): on `failingSite` with `MaxDepth = 3`, `crawl` calls
`fetchURL` four times for three URLs: `http://example.com/f`, whose fetch fails,
is fetched at depth 3 and again at depth 2. -/
theorem refetch_after_failure :
    (Crawl (demoEnv failingSite) (freshRun (demoEnv failingSite) "http://example.com/" false 3)
        "http://example.com/").calls =
      [(1, "http://example.com/"), (2, "http://example.com/a"), (3, "http://example.com/f"),
        (2, "http://example.com/f")] ∧
    (Crawl (demoEnv failingSite) (freshRun (demoEnv failingSite) "http://example.com/" false 3)
        "http://example.com/").c.NumURLs = 4 := by
  decide

theorem fetchURL_crawler (env : Env) (c : Crawler) (u : String) :
    (fetchURL env c u).1 = { c with NumURLs := c.NumURLs + 1 } := by
  unfold fetchURL
  cases env.urlParse u with
  | none => rfl
  | some p =>
    simp only
    cases env.getDocument (c.NumURLs + 1) u <;> rfl

/-- What the cache statement of `crawl` changes: at most one call of `fetchURL`,
at the depth and URL of the visit; the configuration stays. -/
theorem lookupOrFetch_frame (env : Env) (r : Run) (u : String) (depth : Int) :
    (lookupOrFetch env r u depth).1.c.MaxDepth = r.c.MaxDepth ∧
    (lookupOrFetch env r u depth).1.c.RestrictDomain = r.c.RestrictDomain ∧
    (lookupOrFetch env r u depth).1.visits = r.visits ∧
    (lookupOrFetch env r u depth).1.out = r.out ∧
    (((lookupOrFetch env r u depth).1.calls = r.calls ∧
        (lookupOrFetch env r u depth).1.c.NumURLs = r.c.NumURLs) ∨
      ((lookupOrFetch env r u depth).1.calls = r.calls ++ [(depth, u)] ∧
        (lookupOrFetch env r u depth).1.c.NumURLs = r.c.NumURLs + 1)) := by
  unfold lookupOrFetch
  cases hget : r.c.URLInfo.bind (fun m => mapGet m u) with
  | some p => simp
  | none =>
    simp only [fetchURL_crawler]
    split_ifs
    · cases r.c.URLInfo <;> simp
    · cases (fetchURL env r.c u).2.1.URL <;> simp

theorem Within.refl (d : Int) (r : Run) : Within d r r :=
  ⟨rfl, rfl, fun _ h => Or.inl h, fun _ h => Or.inl h⟩

theorem Within.trans {d : Int} {r₁ r₂ r₃ : Run} (h₁ : Within d r₁ r₂) (h₂ : Within d r₂ r₃) :
    Within d r₁ r₃ := by
  obtain ⟨a1, b1, c1, d1⟩ := h₁
  obtain ⟨a2, b2, c2, d2⟩ := h₂
  refine ⟨a2.trans a1, b2.trans b1, ?_, ?_⟩
  · intro e he
    rcases c2 e he with h | h
    · exact c1 e h
    · exact Or.inr (a1 ▸ h)
  · intro e he
    rcases d2 e he with h | h
    · exact d1 e h
    · exact Or.inr (a1 ▸ h)

theorem Within.mono {d d' : Int} {r r' : Run} (hd : d ≤ d') (h : Within d' r r') :
    Within d r r' := by
  obtain ⟨a, b, c, e⟩ := h
  refine ⟨a, b, ?_, ?_⟩
  · intro x hx
    rcases c x hx with h | h
    · exact Or.inl h
    · exact Or.inr ⟨le_trans hd h.1, h.2⟩
  · intro x hx
    rcases e x hx with h | h
    · exact Or.inl h
    · exact Or.inr ⟨le_trans hd h.1, h.2⟩

theorem Within.foldl {α : Type} (d : Int) (f : Run → α → Run)
    (hf : ∀ r a, Within d r (f r a)) (l : List α) (r : Run) : Within d r (l.foldl f r) := by
  induction l generalizing r with
  | nil => exact Within.refl d r
  | cons a rest ih => exact (hf r a).trans (ih (f r a))

theorem Within.visit (r : Run) (line : String) (depth : Int) (u : String)
    (hd : depth ≤ r.c.MaxDepth) :
    Within depth r { r with out := r.out ++ [line], visits := r.visits ++ [(depth, u)] } := by
  refine ⟨rfl, rfl, fun _ h => Or.inl h, ?_⟩
  intro x hx
  rcases List.mem_append.mp hx with h' | h'
  · exact Or.inl h'
  · rw [List.mem_singleton] at h'
    subst h'
    exact Or.inr ⟨le_refl _, hd⟩

theorem lookupOrFetch_within (env : Env) (r : Run) (u : String) (depth : Int)
    (hd : depth ≤ r.c.MaxDepth) : Within depth r (lookupOrFetch env r u depth).1 := by
  obtain ⟨a, b, c, _, e⟩ := lookupOrFetch_frame env r u depth
  refine ⟨a, b, ?_, ?_⟩
  · intro x hx
    rcases e with ⟨h, _⟩ | ⟨h, _⟩
    · exact Or.inl (h ▸ hx)
    · rw [h] at hx
      rcases List.mem_append.mp hx with h' | h'
      · exact Or.inl h'
      · rw [List.mem_singleton] at h'
        subst h'
        exact Or.inr ⟨le_refl _, hd⟩
  · intro x hx
    exact Or.inl (c ▸ hx)

/-- Every call of `fetchURL` and every visit made by `crawl` at the depth
`depth` is at a depth from `depth` to `MaxDepth`. -/
theorem crawlN_within (env : Env) (fuel : Nat) :
    ∀ (r : Run) (crawlURL : String) (depth : Int),
      Within depth r (crawlN env fuel r crawlURL depth) := by
  induction fuel with
  | zero => intro r _ depth; exact Within.refl depth r
  | succ n ih =>
    intro r crawlURL depth
    unfold crawlN
    split_ifs with h1 h2
    · exact Within.refl depth r
    · exact Within.refl depth r
    · have hd : depth ≤ r.c.MaxDepth := not_lt.mp h2
      cases hp : env.urlParse crawlURL with
      | none => exact Within.refl depth r
      | some parsedURL =>
        have hw := lookupOrFetch_within env r (env.urlString parsedURL) depth hd
        simp only
        split_ifs with h3 h4 h5
        · exact hw
        · exact hw
        · cases hline : (lookupOrFetch env r (env.urlString parsedURL) depth).2.1.PrintIndent
              depth with
          | none => exact hw.trans ⟨rfl, rfl, fun _ h => Or.inl h, fun _ h => Or.inl h⟩
          | some line =>
            simp only
            refine (hw.trans (Within.visit _ line depth (env.urlString parsedURL) (hw.1 ▸ hd))).trans
              (Within.mono (Int.le_add_one (le_refl depth)) ?_)
            exact Within.foldl (depth + 1) _ (fun r' link => ih r' link (depth + 1)) _ _
        · cases hline : (lookupOrFetch env r (env.urlString parsedURL) depth).2.1.PrintIndent
              depth with
          | none => exact hw.trans ⟨rfl, rfl, fun _ h => Or.inl h, fun _ h => Or.inl h⟩
          | some line =>
            exact hw.trans (Within.visit _ line depth (env.urlString parsedURL) (hw.1 ▸ hd))

/-! ## The recursion of `crawl` -/

theorem foldl_crawl_eq (env : Env) (n : Nat) (d M : Int) (hn : (M + 1 - d).toNat = n) :
    ∀ (L : List String) (r : Run), r.c.MaxDepth = M →
      L.foldl (fun r link => crawlN env n r link d) r =
        L.foldl (fun r link => crawl env r link d) r := by
  intro L
  induction L with
  | nil => intro r _; rfl
  | cons l rest ih =>
    intro r hr
    have h1 : crawl env r l d = crawlN env n r l d := by
      unfold crawl
      rw [hr, hn]
    rw [List.foldl_cons, List.foldl_cons, h1]
    exact ih _ ((crawlN_within env n r l d).1.trans hr)

/-- The method `crawl` of the program, statement by statement: the bound on the
nested calls that `crawlN` carries is never the reason for a return. -/
theorem crawl_eq (env : Env) (r : Run) (crawlURL : String) (depth : Int) :
    crawl env r crawlURL depth =
      if r.panicked then r
      else if depth > r.c.MaxDepth then r
      else
        match env.urlParse crawlURL with
        | none => r
        | some parsedURL =>
          if (lookupOrFetch env r (env.urlString parsedURL) depth).1.panicked then
            (lookupOrFetch env r (env.urlString parsedURL) depth).1
          else if (lookupOrFetch env r (env.urlString parsedURL) depth).2.2 ≠ true then
            (lookupOrFetch env r (env.urlString parsedURL) depth).1
          else
            match (lookupOrFetch env r (env.urlString parsedURL) depth).2.1.PrintIndent depth with
            | none => { (lookupOrFetch env r (env.urlString parsedURL) depth).1 with
                        panicked := true }
            | some line =>
              if depth ≠ r.c.MaxDepth then
                (lookupOrFetch env r (env.urlString parsedURL) depth).2.1.Links.foldl
                  (fun r link => crawl env r link (depth + 1))
                  { (lookupOrFetch env r (env.urlString parsedURL) depth).1 with
                    out := (lookupOrFetch env r (env.urlString parsedURL) depth).1.out ++ [line]
                    visits := (lookupOrFetch env r (env.urlString parsedURL) depth).1.visits ++
                      [(depth, env.urlString parsedURL)] }
              else
                { (lookupOrFetch env r (env.urlString parsedURL) depth).1 with
                  out := (lookupOrFetch env r (env.urlString parsedURL) depth).1.out ++ [line]
                  visits := (lookupOrFetch env r (env.urlString parsedURL) depth).1.visits ++
                    [(depth, env.urlString parsedURL)] } := by
  by_cases hgt : depth > r.c.MaxDepth
  · have hfuel : (r.c.MaxDepth + 1 - depth).toNat = 0 := by
      apply Int.toNat_eq_zero.mpr
      omega
    rw [crawl, hfuel, crawlN]
    simp [hgt]
  · have hfuel : (r.c.MaxDepth + 1 - depth).toNat = (r.c.MaxDepth + 1 - (depth + 1)).toNat + 1 := by
      omega
    rw [crawl, hfuel, crawlN]
    by_cases hpan : r.panicked = true
    · simp only [hpan, if_true]
    · simp only [hpan, if_false, hgt]
      cases hp : env.urlParse crawlURL with
      | none => rfl
      | some parsedURL =>
        have hmax := (lookupOrFetch_frame env r (env.urlString parsedURL) depth).1
        simp only
        generalize lookupOrFetch env r (env.urlString parsedURL) depth = res at hmax ⊢
        obtain ⟨r1, pageInfo, hasInfo⟩ := res
        simp only at hmax ⊢
        by_cases h3 : r1.panicked = true
        · simp only [h3, if_true]
        · simp only [h3, if_false]
          by_cases h4 : hasInfo = true
          · simp only [h4, ne_eq, not_true_eq_false, if_false]
            cases pageInfo.PrintIndent depth with
            | none => rfl
            | some line =>
              simp only [hmax]
              by_cases h5 : depth = r.c.MaxDepth
              · simp only [h5, not_true_eq_false, if_false]
              · simp only [h5, not_false_eq_true, if_true]
                exact foldl_crawl_eq env _ (depth + 1) r.c.MaxDepth rfl _ _ hmax
          · have h4' : hasInfo = false := by simpa using h4
            subst h4'
            simp

/-- The `PageInfo` of a successful `fetchURL`: the loop over the map that the
walk of the document has filled, then the sort of `Links`. -/
theorem fetchURL_success (env : Env) (c : Crawler) (u : String) (p : URL) (doc : Node)
    (hp : env.urlParse u = some p) (hdoc : env.getDocument (c.NumURLs + 1) u = some doc) :
    (fetchURL env c u).2 =
      (collect (env.rangeOrder (c.NumURLs + 1)
        (parseNode env c.RestrictDomain p.Scheme p.Host doc [])) { URL := some p }, true) := by
  unfold fetchURL
  simp only [hp, hdoc]

/-- At the depth `MaxDepth` the method `crawl` stops after the cache statement
and the summary line: the crawler, the calls of `fetchURL` and the panic state
are those left by the cache statement, whatever links the page has. -/
theorem crawlN_at_MaxDepth (env : Env) (fuel : Nat) (r : Run) (crawlURL : String)
    (parsedURL : URL) (hpan : r.panicked = false)
    (hparse : env.urlParse crawlURL = some parsedURL) :
    (crawlN env (fuel + 1) r crawlURL r.c.MaxDepth).c =
        (lookupOrFetch env r (env.urlString parsedURL) r.c.MaxDepth).1.c ∧
      (crawlN env (fuel + 1) r crawlURL r.c.MaxDepth).calls =
        (lookupOrFetch env r (env.urlString parsedURL) r.c.MaxDepth).1.calls ∧
      ((crawlN env (fuel + 1) r crawlURL r.c.MaxDepth).visits = r.visits ∨
        (crawlN env (fuel + 1) r crawlURL r.c.MaxDepth).visits =
          r.visits ++ [(r.c.MaxDepth, env.urlString parsedURL)]) := by
  obtain ⟨hmax, _, hvis, _, _⟩ :=
    lookupOrFetch_frame env r (env.urlString parsedURL) r.c.MaxDepth
  unfold crawlN
  simp only [hpan, Bool.false_eq_true, if_false, gt_iff_lt, lt_self_iff_false, hparse]
  split_ifs with h3 h4 h5
  · exact ⟨rfl, rfl, Or.inl hvis⟩
  · exact ⟨rfl, rfl, Or.inl hvis⟩
  · exact absurd hmax.symm h5
  · cases (lookupOrFetch env r (env.urlString parsedURL) r.c.MaxDepth).2.1.PrintIndent
        r.c.MaxDepth with
    | none => exact ⟨rfl, rfl, Or.inl hvis⟩
    | some line => exact ⟨rfl, rfl, Or.inr (by simp [hvis])⟩

theorem lookupOrFetch_miss (env : Env) (r : Run) (u : String) (depth : Int)
    (hmiss : r.c.URLInfo.bind (fun m => mapGet m u) = none) :
    (lookupOrFetch env r u depth).1.c.NumURLs = r.c.NumURLs + 1 ∧
      (lookupOrFetch env r u depth).1.calls = r.calls ++ [(depth, u)] := by
  unfold lookupOrFetch
  simp only [hmiss, fetchURL_crawler]
  split_ifs
  · cases r.c.URLInfo <;> simp
  · cases (fetchURL env r.c u).2.1.URL <;> simp

/-- C7: every call of `fetchURL` and every visit made by `Crawl` is at a depth
from 1 to `MaxDepth`; at the depth `MaxDepth` the method `crawl` makes at most
one call of `fetchURL`, at that depth, and at most one visit, so that no link of
the page is followed; and with `MaxDepth = 1`, an empty cache, the counter at 0
and a seed that parses, `Crawl` leaves `NumURLs = 1`. -/
theorem crawl_depth_bound (env : Env) (r : Run) (crawlURL : String) :
    (∀ e ∈ (Crawl env r crawlURL).calls, e ∈ r.calls ∨ (1 ≤ e.1 ∧ e.1 ≤ r.c.MaxDepth)) ∧
    (∀ e ∈ (Crawl env r crawlURL).visits, e ∈ r.visits ∨ (1 ≤ e.1 ∧ e.1 ≤ r.c.MaxDepth)) ∧
    (∀ link,
      ((crawl env r link r.c.MaxDepth).calls = r.calls ∨
        ∃ u, (crawl env r link r.c.MaxDepth).calls = r.calls ++ [(r.c.MaxDepth, u)]) ∧
      ((crawl env r link r.c.MaxDepth).visits = r.visits ∨
        ∃ u, (crawl env r link r.c.MaxDepth).visits = r.visits ++ [(r.c.MaxDepth, u)]) ∧
      (crawl env r link r.c.MaxDepth).c.NumURLs ≤ r.c.NumURLs + 1) ∧
    (r.c.MaxDepth = 1 → r.c.URLInfo = some [] → r.c.NumURLs = 0 → r.panicked = false →
      (env.urlParse crawlURL).isSome → (Crawl env r crawlURL).c.NumURLs = 1) := by
  have hw := crawlN_within env (r.c.MaxDepth + 1 - 1).toNat r crawlURL 1
  refine ⟨hw.2.2.1, hw.2.2.2, ?_, ?_⟩
  · intro link
    have hfuel : (r.c.MaxDepth + 1 - r.c.MaxDepth).toNat = 0 + 1 := by
      have : r.c.MaxDepth + 1 - r.c.MaxDepth = 1 := by omega
      rw [this]; rfl
    unfold crawl
    rw [hfuel]
    cases hpan : r.panicked with
    | true =>
      have : crawlN env (0 + 1) r link r.c.MaxDepth = r := by
        unfold crawlN; simp [hpan]
      rw [this]
      exact ⟨Or.inl rfl, Or.inl rfl, by omega⟩
    | false =>
      cases hp : env.urlParse link with
      | none =>
        have : crawlN env (0 + 1) r link r.c.MaxDepth = r := by
          unfold crawlN; simp [hpan, hp]
        rw [this]
        exact ⟨Or.inl rfl, Or.inl rfl, by omega⟩
      | some parsedURL =>
        obtain ⟨hc, hcalls, hvis⟩ := crawlN_at_MaxDepth env 0 r link parsedURL hpan hp
        obtain ⟨_, _, _, _, hlf⟩ :=
          lookupOrFetch_frame env r (env.urlString parsedURL) r.c.MaxDepth
        rw [hc, hcalls]
        refine ⟨?_, ?_, ?_⟩
        · rcases hlf with ⟨h, _⟩ | ⟨h, _⟩
          · exact Or.inl h
          · exact Or.inr ⟨_, h⟩
        · rcases hvis with h | h
          · exact Or.inl h
          · exact Or.inr ⟨_, h⟩
        · rcases hlf with ⟨_, h⟩ | ⟨_, h⟩ <;> omega
  · intro hmax hcache hnum hpan hparse
    obtain ⟨parsedURL, hp⟩ := Option.isSome_iff_exists.mp hparse
    have h1 := (crawlN_at_MaxDepth env 0 r crawlURL parsedURL hpan hp).1
    have h2 := (lookupOrFetch_miss env r (env.urlString parsedURL) r.c.MaxDepth
      (by simp [hcache, mapGet])).1
    unfold Crawl crawl
    rw [hmax] at h1 h2 ⊢
    have hfuel : ((1 : Int) + 1 - 1).toNat = 0 + 1 := by decide
    rw [hfuel, h1, h2, hnum]
    rfl

theorem crawl_depth_bound_witness :
    (Crawl (demoEnv smallSite) (freshRun (demoEnv smallSite) "http://example.com/" false 1)
      "http://example.com/").c.NumURLs = 1 :=
  (crawl_depth_bound (demoEnv smallSite)
    (freshRun (demoEnv smallSite) "http://example.com/" false 1) "http://example.com/").2.2.2
    (by decide) (by decide) (by decide) (by decide) (by decide)

theorem mapGet_mapSet {β : Type} (m : GoMap β) (k k' : String) (v : β) :
    mapGet (mapSet m k v) k' = if k = k' then some v else mapGet m k' := by
  induction m with
  | nil => simp [mapSet, mapGet]
  | cons e rest ih =>
    obtain ⟨a, b⟩ := e
    by_cases h : a = k
    · subst h
      by_cases h' : a = k' <;> simp [mapSet, mapGet, h']
    · by_cases h' : a = k'
      · subst h'
        have : ¬ k = a := fun e => h e.symm
        simp [mapSet, mapGet, h, this]
      · simp [mapSet, mapGet, h, h', ih]

theorem collect_URL (order : GoMap String) (p : PageInfo) : (collect order p).URL = p.URL := by
  have h : ∀ (l : GoMap String) (q : PageInfo), (l.foldl collectStep q).URL = q.URL := by
    intro l
    induction l with
    | nil => intro q; rfl
    | cons e rest ih =>
      intro q
      rw [List.foldl_cons, ih]
      unfold collectStep
      simp only
      split_ifs <;> rfl
  simp [collect, h]

/-- Whenever the URL string parses, `fetchURL` returns a `PageInfo` with its URL
set, on success and on failure. -/
theorem fetchURL_URL (env : Env) (c : Crawler) (u : String) (p : URL)
    (hp : env.urlParse u = some p) : (fetchURL env c u).2.1.URL = some p := by
  unfold fetchURL
  simp only [hp]
  cases env.getDocument (c.NumURLs + 1) u with
  | none => rfl
  | some doc => simp [collect_URL]

theorem fetchURL_ok_URL (env : Env) (c : Crawler) (u : String)
    (hok : (fetchURL env c u).2.2 = true) : ∃ p, (fetchURL env c u).2.1.URL = some p := by
  cases hp : env.urlParse u with
  | none => simp [fetchURL, hp] at hok
  | some p => exact ⟨p, fetchURL_URL env c u p hp⟩

theorem PrintIndent_isSome (p : PageInfo) (url : URL) (depth : Int) (h : p.URL = some url) :
    ∃ line, p.PrintIndent depth = some line := by
  simp [PageInfo.PrintIndent, PageInfo.Print, h]

/-- The cache statement of `crawl` on a URL that is not in the cache and that
parses: no panic, one more fetch, and an entry for that URL when the fetch
succeeds. -/
theorem lookupOrFetch_miss_parsed (env : Env) (r : Run) (k : String) (depth : Int)
    (m : GoMap PageInfo) (p : URL) (hcache : r.c.URLInfo = some m)
    (hmiss : mapGet m k = none) (hpk : env.urlParse k = some p) :
    (lookupOrFetch env r k depth).1.panicked = r.panicked ∧
      (lookupOrFetch env r k depth).1.c.MaxDepth = r.c.MaxDepth ∧
      (lookupOrFetch env r k depth).1.c.NumURLs = r.c.NumURLs + 1 ∧
      (∃ m', (lookupOrFetch env r k depth).1.c.URLInfo = some m' ∧
        ∀ k', k' ≠ k → mapGet m k' = none → mapGet m' k' = none) ∧
      ((lookupOrFetch env r k depth).2.2 = true →
        (lookupOrFetch env r k depth).2.1.URL = some p) ∧
      (lookupOrFetch env r k depth).2.2 = (fetchURL env r.c k).2.2 ∧
      ((fetchURL env r.c k).2.2 = true →
        (lookupOrFetch env r k depth).2.1 = (fetchURL env r.c k).2.1) := by
  have hurl := fetchURL_URL env r.c k p hpk
  have hb : r.c.URLInfo.bind (fun m => mapGet m k) = none := by simp [hcache, hmiss]
  unfold lookupOrFetch
  simp only [hb, fetchURL_crawler, hurl]
  by_cases hok : (fetchURL env r.c k).2.2 = true
  · simp only [hok, if_true, hcache]
    refine ⟨trivial, trivial, trivial, ⟨_, rfl, ?_⟩, fun _ => hurl, trivial, fun _ => trivial⟩
    intro k' hne hk'
    rw [mapGet_mapSet, if_neg (fun e => hne e.symm)]
    exact hk'
  · simp only [hok, if_false]
    exact ⟨rfl, rfl, rfl, ⟨m, hcache, fun _ _ h => h⟩, fun h => absurd h (by simp),
      rfl, fun h => absurd h (by simp)⟩

/-- A visit at the depth `MaxDepth` of a URL that is not in the cache, and whose
normalized form parses: one call of `fetchURL`, no panic, and the cache gains at
most the entry of that URL. -/
theorem crawlN_leaf (env : Env) (fuel : Nat) (r : Run) (link k : String) (m : GoMap PageInfo)
    (hpan : r.panicked = false) (hcache : r.c.URLInfo = some m)
    (hnorm : normalize env link = some k) (hmiss : mapGet m k = none)
    (hre : (env.urlParse k).isSome) :
    (crawlN env (fuel + 1) r link r.c.MaxDepth).panicked = false ∧
      (crawlN env (fuel + 1) r link r.c.MaxDepth).c.MaxDepth = r.c.MaxDepth ∧
      (crawlN env (fuel + 1) r link r.c.MaxDepth).c.NumURLs = r.c.NumURLs + 1 ∧
      ∃ m', (crawlN env (fuel + 1) r link r.c.MaxDepth).c.URLInfo = some m' ∧
        ∀ k', k' ≠ k → mapGet m k' = none → mapGet m' k' = none := by
  unfold normalize at hnorm
  cases hp : env.urlParse link with
  | none => simp [hp] at hnorm
  | some parsedURL =>
    simp only [hp, Option.map_some', Option.some.injEq] at hnorm
    obtain ⟨p, hpk⟩ := Option.isSome_iff_exists.mp hre
    obtain ⟨h1, h2, h3, h4, h5, _, _⟩ :=
      lookupOrFetch_miss_parsed env r k r.c.MaxDepth m p hcache hmiss hpk
    unfold crawlN
    simp only [hpan, Bool.false_eq_true, if_false, gt_iff_lt, lt_self_iff_false, hp, hnorm]
    generalize lookupOrFetch env r k r.c.MaxDepth = res at h1 h2 h3 h4 h5 ⊢
    obtain ⟨r1, pageInfo, hasInfo⟩ := res
    simp only at h1 h2 h3 h4 h5 ⊢
    rw [hpan] at h1
    simp only [h1, Bool.false_eq_true, if_false, h2, ne_eq, not_true_eq_false]
    by_cases hok : hasInfo = true
    · obtain ⟨line, hline⟩ := PrintIndent_isSome pageInfo p r.c.MaxDepth (h5 hok)
      simp only [hok, not_true_eq_false, if_false, hline]
      exact ⟨trivial, h2, h3, h4⟩
    · simp only [hok, not_false_eq_true, if_true]
      exact ⟨h1, h2, h3, h4⟩

/-- The loop over the links of a page at the depth `MaxDepth - 1`: when the
links have normalized forms that are pairwise distinct, not in the cache, and
that parse, every link is fetched once. -/
theorem crawl_children (env : Env) (fuel : Nat) (D : Int) :
    ∀ (L : List String) (r : Run) (m : GoMap PageInfo),
      r.panicked = false → r.c.MaxDepth = D → r.c.URLInfo = some m →
      (∀ l ∈ L, ∃ k, normalize env l = some k ∧ mapGet m k = none ∧
        (env.urlParse k).isSome) →
      (L.filterMap (normalize env)).Nodup →
      (L.foldl (fun r link => crawlN env (fuel + 1) r link D) r).c.NumURLs =
          r.c.NumURLs + L.length ∧
        (L.foldl (fun r link => crawlN env (fuel + 1) r link D) r).panicked = false := by
  intro L
  induction L with
  | nil => intro r m hpan _ _ _ _; simp [hpan]
  | cons l rest ih =>
    intro r m hpan hD hcache hall hnd
    obtain ⟨k, hk, hmiss, hre⟩ := hall l (by simp)
    obtain ⟨h1, h2, h3, m', h4, h5⟩ := crawlN_leaf env fuel r l k m hpan hcache hk hmiss hre
    rw [hD] at h1 h2 h3 h4
    rw [List.filterMap_cons_some hk, List.nodup_cons] at hnd
    have hall' : ∀ l' ∈ rest, ∃ k', normalize env l' = some k' ∧ mapGet m' k' = none ∧
        (env.urlParse k').isSome := by
      intro l' hl'
      obtain ⟨k', hk', hmiss', hre'⟩ := hall l' (by simp [hl'])
      refine ⟨k', hk', h5 k' ?_ hmiss', hre'⟩
      rintro rfl
      exact hnd.1 (List.mem_filterMap.mpr ⟨l', hl', hk'⟩)
    obtain ⟨i1, i2⟩ := ih (crawlN env (fuel + 1) r l D) m' h1 h2 h4 hall' hnd.2
    rw [List.foldl_cons]
    refine ⟨?_, i2⟩
    rw [i1, h3, List.length_cons]
    push_cast
    ring

/-! ## The count of fetches at `MaxDepth = 2` -/

/-- C8: on a crawler with `MaxDepth = 2`, an empty cache and the counter at 0,
when the seed parses, its page is fetched with success, and the internal links
of the page have normalized forms that are pairwise distinct and distinct from
the normalized seed (each of them a string that `url.Parse` accepts), `Crawl`
leaves `NumURLs = 1 + n` for the `n` links, whether the fetches of the links
succeed or fail. -/
theorem crawl_depth_two_count (env : Env) (c : Crawler) (seed : String) (seedURL : URL)
    (hdepth : c.MaxDepth = 2) (hcache : c.URLInfo = some []) (hnum : c.NumURLs = 0)
    (hseed : env.urlParse seed = some seedURL)
    (hok : (fetchURL env c (env.urlString seedURL)).2.2 = true)
    (hnorm : ∀ l ∈ (fetchURL env c (env.urlString seedURL)).2.1.Links,
      ∃ k, normalize env l = some k ∧ (env.urlParse k).isSome)
    (hdistinct :
      ((fetchURL env c (env.urlString seedURL)).2.1.Links.filterMap (normalize env)).Nodup)
    (hnew : env.urlString seedURL ∉
      (fetchURL env c (env.urlString seedURL)).2.1.Links.filterMap (normalize env)) :
    (Crawl env { c := c } seed).c.NumURLs =
      1 + (fetchURL env c (env.urlString seedURL)).2.1.Links.length := by
  obtain ⟨p, hp⟩ : ∃ p, env.urlParse (env.urlString seedURL) = some p := by
    cases hq : env.urlParse (env.urlString seedURL) with
    | none => simp [fetchURL, hq] at hok
    | some p => exact ⟨p, rfl⟩
  obtain ⟨h1, h2, h3, ⟨m', h4, h5⟩, h6, h7, h8⟩ :=
    lookupOrFetch_miss_parsed env { c := c } (env.urlString seedURL) 1 [] p hcache rfl hp
  have hfuel : (c.MaxDepth + 1 - 1).toNat = 1 + 1 := by rw [hdepth]; decide
  unfold Crawl crawl
  simp only [hfuel]
  unfold crawlN
  simp only [Bool.false_eq_true, if_false, hdepth, hseed, gt_iff_lt]
  simp only at h7 h8
  rw [hok] at h7
  have h8' := h8 hok
  generalize lookupOrFetch env { c := c } (env.urlString seedURL) 1 = res
    at h1 h2 h3 h4 h5 h6 h7 h8'
  obtain ⟨r1, pageInfo, hasInfo⟩ := res
  simp only at h1 h2 h3 h4 h5 h6 h7 h8' ⊢
  subst h7 h8'
  obtain ⟨line, hline⟩ := PrintIndent_isSome _ p 1 (h6 rfl)
  have hlt : ¬ ((2 : Int) < 1) := by decide
  have hne : (1 : Int) ≠ r1.c.MaxDepth := by rw [h2, hdepth]; decide
  simp only [hlt, if_false, h1, Bool.false_eq_true, ne_eq, not_true_eq_false, hline, hne,
    not_false_eq_true, if_true]
  have hall : ∀ l ∈ (fetchURL env c (env.urlString seedURL)).2.1.Links,
      ∃ k, normalize env l = some k ∧ mapGet m' k = none ∧ (env.urlParse k).isSome := by
    intro l hl
    obtain ⟨k, hk, hre⟩ := hnorm l hl
    refine ⟨k, hk, h5 k ?_ rfl, hre⟩
    rintro rfl
    exact hnew (List.mem_filterMap.mpr ⟨l, hl, hk⟩)
  have hch := crawl_children env 0 ((1 : Int) + 1)
    (fetchURL env c (env.urlString seedURL)).2.1.Links
    { r1 with out := r1.out ++ [line], visits := r1.visits ++ [(1, env.urlString seedURL)] }
    m' h1 (by rw [h2, hdepth]; decide) h4 hall hdistinct
  simp only [Nat.zero_add, h1] at hch
  rw [hch.1, h3, hnum]
  ring

theorem crawl_depth_two_count_witness :
    (Crawl (demoEnv smallSite) { c := freshCrawler (demoEnv smallSite) "http://example.com/" true 2 }
      "http://example.com/").c.NumURLs = 1 + 2 :=
  crawl_depth_two_count (demoEnv smallSite)
    (freshCrawler (demoEnv smallSite) "http://example.com/" true 2) "http://example.com/"
    { Scheme := "http", Host := "example.com", Path := "/" }
    (by decide) (by decide) (by decide) (by decide) (by decide) (by decide) (by decide)
    (by decide)

/-! ## The order of `Links` -/

theorem lexLE_total : ∀ a b : List Char, lexLE a b = true ∨ lexLE b a = true
  | [], _ => Or.inl (by simp [lexLE])
  | _ :: _, [] => Or.inr (by simp [lexLE])
  | a :: as, b :: bs => by
    rcases Nat.lt_trichotomy a.toNat b.toNat with h | h | h
    · exact Or.inl (by simp [lexLE, h])
    · rcases lexLE_total as bs with h' | h'
      · exact Or.inl (by simp [lexLE, h, h'])
      · exact Or.inr (by simp [lexLE, h, h'])
    · exact Or.inr (by simp [lexLE, h])

theorem lexLE_trans : ∀ a b c : List Char, lexLE a b = true → lexLE b c = true →
    lexLE a c = true
  | [], _, _, _, _ => by simp [lexLE]
  | _ :: _, [], _, h, _ => by simp [lexLE] at h
  | _ :: _, _ :: _, [], _, h => by simp [lexLE] at h
  | a :: as, b :: bs, c :: cs, h₁, h₂ => by
    simp only [lexLE] at h₁ h₂ ⊢
    split_ifs at h₁ with p1 p2
    · split_ifs at h₂ with q1 q2
      · have : a.toNat < c.toNat := lt_trans p1 q1
        simp [this]
      · have : a.toNat < c.toNat := by omega
        simp [this]
    · split_ifs at h₂ with q1 q2
      · have : a.toNat < c.toNat := by omega
        simp [this]
      · have e1 : ¬ a.toNat < c.toNat := by omega
        have e2 : ¬ c.toNat < a.toNat := by omega
        simp only [e1, e2, if_false]
        exact lexLE_trans as bs cs h₁ h₂

theorem sortStrings_sorted (l : List String) : List.Sorted strLE (sortStrings l) := by
  haveI : IsTotal String strLE := ⟨fun a b => lexLE_total a.data b.data⟩
  haveI : IsTrans String strLE := ⟨fun a b c => lexLE_trans a.data b.data c.data⟩
  exact List.sorted_insertionSort strLE l

theorem foldl_collectStep_Links (l : GoMap String) (p : PageInfo) :
    (l.foldl collectStep p).Links = p.Links ++ internalLinks l := by
  induction l generalizing p with
  | nil => simp [internalLinks]
  | cons e rest ih =>
    obtain ⟨k, v⟩ := e
    rw [List.foldl_cons, ih]
    unfold collectStep internalLinks
    simp only
    split_ifs with h1 h2 h3 h4 h5 h6 <;> simp_all [List.filter_cons]

theorem collect_Links_perm (order : GoMap String) (url : Option URL) :
    (collect order { URL := url }).Links.Perm (internalLinks order) := by
  have h := foldl_collectStep_Links order { URL := url }
  simp only [List.nil_append] at h
  simp only [collect, h]
  exact List.perm_insertionSort strLE _

/-- A property of the run that the cache statement, the summary line and a panic
keep is kept by `crawl`. -/
theorem crawlN_induct (env : Env) (P : Run → Prop)
    (hfetch : ∀ r u d, P r → P (lookupOrFetch env r u d).1)
    (hvisit : ∀ (r : Run) line d u, P r →
      P { r with out := r.out ++ [line], visits := r.visits ++ [(d, u)] })
    (hpanic : ∀ r : Run, P r → P { r with panicked := true }) (fuel : Nat) :
    ∀ (r : Run) (crawlURL : String) (depth : Int), P r →
      P (crawlN env fuel r crawlURL depth) := by
  induction fuel with
  | zero => intro r _ _ h; exact h
  | succ n ih =>
    intro r crawlURL depth h
    unfold crawlN
    split_ifs with h1 h2
    · exact h
    · exact h
    · cases hp : env.urlParse crawlURL with
      | none => exact h
      | some parsedURL =>
        have hw := hfetch r (env.urlString parsedURL) depth h
        simp only
        split_ifs with h3 h4 h5
        · exact hw
        · exact hw
        · cases (lookupOrFetch env r (env.urlString parsedURL) depth).2.1.PrintIndent depth with
          | none => exact hpanic _ hw
          | some line =>
            simp only
            have hv := hvisit _ line depth (env.urlString parsedURL) hw
            generalize (lookupOrFetch env r (env.urlString parsedURL) depth).2.1.Links = L
            revert hv
            generalize ({ (lookupOrFetch env r (env.urlString parsedURL) depth).1 with
              out := (lookupOrFetch env r (env.urlString parsedURL) depth).1.out ++ [line],
              visits := (lookupOrFetch env r (env.urlString parsedURL) depth).1.visits ++
                [(depth, env.urlString parsedURL)] } : Run) = r2
            intro hv
            induction L generalizing r2 with
            | nil => exact hv
            | cons l rest ihl => exact ihl _ (ih r2 l (depth + 1) hv)
        · cases (lookupOrFetch env r (env.urlString parsedURL) depth).2.1.PrintIndent depth with
          | none => exact hpanic _ hw
          | some line => exact hvisit _ line depth (env.urlString parsedURL) hw

theorem mem_mapSet {β : Type} (m : GoMap β) (k : String) (v : β) (e : String × β)
    (h : e ∈ mapSet m k v) : e = (k, v) ∨ e ∈ m := by
  induction m with
  | nil => simpa [mapSet] using h
  | cons a rest ih =>
    obtain ⟨k', v'⟩ := a
    by_cases hk : k' = k
    · simp only [mapSet, hk, if_true, List.mem_cons] at h
      rcases h with h | h
      · exact Or.inl h
      · exact Or.inr (by simp [h])
    · simp only [mapSet, hk, if_false, List.mem_cons] at h
      rcases h with h | h
      · exact Or.inr (by simp [h])
      · rcases ih h with h' | h'
        · exact Or.inl h'
        · exact Or.inr (by simp [h'])

theorem fetchURL_Links_sorted (env : Env) (c : Crawler) (u : String) :
    List.Sorted strLE (fetchURL env c u).2.1.Links := by
  unfold fetchURL
  cases env.urlParse u with
  | none => simp
  | some p =>
    simp only
    cases env.getDocument (c.NumURLs + 1) u with
    | none => simp
    | some doc => exact sortStrings_sorted _

theorem lookupOrFetch_CacheSorted (env : Env) (r : Run) (u : String) (d : Int)
    (h : CacheSorted r) : CacheSorted (lookupOrFetch env r u d).1 := by
  unfold lookupOrFetch
  cases hget : r.c.URLInfo.bind (fun m => mapGet m u) with
  | some p => exact h
  | none =>
    simp only [fetchURL_crawler]
    split_ifs
    · cases hm : r.c.URLInfo with
      | none =>
        intro m' hm'
        simp [hm] at hm'
      | some m =>
        intro m' hm' e he
        simp only [Option.some.injEq] at hm'
        subst hm'
        rcases mem_mapSet m u _ e he with h' | h'
        · rw [h']
          exact fetchURL_Links_sorted env r.c u
        · exact h m hm e h'
    · cases (fetchURL env r.c u).2.1.URL <;> exact h

/-- C9: the `Links` of the `PageInfo` that `fetchURL` returns are in increasing
order, on success and on failure; on success they are a permutation of the keys
of `links` whose label is `area` or `a`, and on failure there are none; a cache
whose entries are in that order keeps it through `Crawl`. -/
theorem Links_sorted (env : Env) (c : Crawler) (u : String) :
    List.Sorted strLE (fetchURL env c u).2.1.Links ∧
    (∀ p doc, env.urlParse u = some p → env.getDocument (c.NumURLs + 1) u = some doc →
      (fetchURL env c u).2.2 = true ∧
      (fetchURL env c u).2.1.Links.Perm
        (internalLinks (env.rangeOrder (c.NumURLs + 1)
          (parseNode env c.RestrictDomain p.Scheme p.Host doc [])))) ∧
    ((fetchURL env c u).2.2 = false → (fetchURL env c u).2.1.Links = []) ∧
    (∀ (r : Run) (crawlURL : String), CacheSorted r → CacheSorted (Crawl env r crawlURL)) := by
  refine ⟨fetchURL_Links_sorted env c u, ?_, ?_, ?_⟩
  · intro p doc hp hdoc
    unfold fetchURL
    simp only [hp, hdoc]
    exact ⟨trivial, collect_Links_perm _ _⟩
  · unfold fetchURL
    cases env.urlParse u with
    | none => simp
    | some p =>
      simp only
      cases env.getDocument (c.NumURLs + 1) u with
      | none => simp
      | some doc => simp
  · intro r crawlURL h
    exact crawlN_induct env CacheSorted (lookupOrFetch_CacheSorted env)
      (fun _ _ _ _ h => h) (fun _ h => h) _ r crawlURL 1 h

/-! ## Entries that are not absolute URLs -/

/-- C10 (failing input): on a page with `<a href="foo">`, `fetchURL` succeeds
and records the string `foo` in `Links`; `url.Parse` gives it an empty scheme
and an empty host, so it is not an absolute URL. -/
theorem relative_link_recorded :
    (fetchURL (demoEnv relativeSite) (freshCrawler (demoEnv relativeSite) "http://example.com/" false 1)
        "http://example.com/").2.2 = true ∧
      (fetchURL (demoEnv relativeSite)
        (freshCrawler (demoEnv relativeSite) "http://example.com/" false 1)
        "http://example.com/").2.1.Links = ["foo"] ∧
      tableParse "foo" = some { Path := "foo" } ∧
      ¬ validAbsolute (demoEnv relativeSite) "foo" := by
  decide

/-! ## The counter of `fetchURL` -/

/-- C14: every call of `fetchURL` adds exactly 1 to `NumURLs`, on the success
path and on every failure path (the URL does not parse, the fetch or the parse
of the body fails), and leaves `RestrictDomain`, `MaxDepth` and `URLInfo` as
they were. -/
theorem fetchURL_counter (env : Env) (c : Crawler) (urlString : String) :
    (fetchURL env c urlString).1.NumURLs = c.NumURLs + 1 ∧
      (fetchURL env c urlString).1.RestrictDomain = c.RestrictDomain ∧
      (fetchURL env c urlString).1.MaxDepth = c.MaxDepth ∧
      (fetchURL env c urlString).1.URLInfo = c.URLInfo ∧
      (env.urlParse urlString = none →
        (fetchURL env c urlString).2.2 = false ∧
          (fetchURL env c urlString).1.NumURLs = c.NumURLs + 1) ∧
      (∀ p, env.urlParse urlString = some p →
        env.getDocument (c.NumURLs + 1) urlString = none →
        (fetchURL env c urlString).2.2 = false ∧
          (fetchURL env c urlString).1.NumURLs = c.NumURLs + 1) := by
  have h := fetchURL_crawler env c urlString
  refine ⟨by rw [h], by rw [h], by rw [h], by rw [h], ?_, ?_⟩
  · intro hp
    refine ⟨?_, by rw [h]⟩
    simp [fetchURL, hp]
  · intro p hp hdoc
    refine ⟨?_, by rw [h]⟩
    simp [fetchURL, hp, hdoc]

/-! ## `InputCheck` -/

/-- C15: `InputCheck` returns an empty error string exactly when the depth
argument reads as an integer that is at least 1 and the domain argument reads
as a boolean; it then returns that boolean and that depth, as for
`("true", "1")` and `("FALSE", "2")`; in every other case it returns
`(false, 0, msg)` with `msg` not empty. -/
theorem InputCheck_spec (domainInput depthInput : String) :
    ((InputCheck domainInput depthInput).2.2 = "" ↔
      ∃ d b, Atoi depthInput = some d ∧ 1 ≤ d ∧ ParseBool domainInput = some b) ∧
    (∀ d b, Atoi depthInput = some d → 1 ≤ d → ParseBool domainInput = some b →
      InputCheck domainInput depthInput = (b, d, "")) ∧
    ((InputCheck domainInput depthInput).2.2 ≠ "" →
      (InputCheck domainInput depthInput).1 = false ∧
        (InputCheck domainInput depthInput).2.1 = 0) ∧
    InputCheck "true" "1" = (true, 1, "") ∧ InputCheck "FALSE" "2" = (false, 2, "") := by
  refine ⟨?_, ?_, ?_, by decide, by decide⟩
  · unfold InputCheck
    cases hd : Atoi depthInput with
    | none => simp
    | some d =>
      by_cases hlt : d < 1
      · simp only [hlt, if_true]
        constructor
        · intro h; exact absurd h (by decide)
        · rintro ⟨d', b, h1, h2, _⟩
          simp only [Option.some.injEq] at h1
          omega
      · simp only [hlt, if_false]
        cases hb : ParseBool domainInput with
        | none => simp
        | some b => simp; omega
  · intro d b hd h1 hb
    simp [InputCheck, hd, hb, not_lt.mpr h1]
  · unfold InputCheck
    cases Atoi depthInput with
    | none => simp
    | some d =>
      simp only
      split_ifs
      · simp
      · cases ParseBool domainInput <;> simp

/-! ## `Init` on a crawler that has crawled -/

/-- C12 (failing input): a crawler that has crawled `smallSite` with
`MaxDepth = 2` has `NumURLs = 3`; a second call of `Init` on it succeeds,
empties `URLInfo` and stores the arguments, and leaves `NumURLs` at 3; a second
crawl of the same three URLs then brings it to 6. -/
theorem Init_keeps_counter :
    (Crawl (demoEnv smallSite) (freshRun (demoEnv smallSite) "http://example.com/" true 2)
        "http://example.com/").c.NumURLs = 3 ∧
      (Init (demoEnv smallSite)
        (Crawl (demoEnv smallSite) (freshRun (demoEnv smallSite) "http://example.com/" true 2)
          "http://example.com/").c "http://example.com/" false 2).2.1 = true ∧
      (Init (demoEnv smallSite)
        (Crawl (demoEnv smallSite) (freshRun (demoEnv smallSite) "http://example.com/" true 2)
          "http://example.com/").c "http://example.com/" false 2).1 =
        { RestrictDomain := false, MaxDepth := 2, URLInfo := some [], NumURLs := 3 } ∧
      (Crawl (demoEnv smallSite)
        { c := { RestrictDomain := false, MaxDepth := 2, URLInfo := some [], NumURLs := 3 } }
        "http://example.com/").c.NumURLs = 6 := by
  decide

/-! ## The summary line of a page whose fetch fails -/

/-- C17 (failing input): on `failingSite` with `MaxDepth = 2` the fetch of
`http://example.com/f` at depth 2 fails, and `crawl` writes no line for it: the
output has the line of the seed and the line of `/a` and nothing else. -/
theorem failed_page_not_printed :
    (Crawl (demoEnv failingSite) (freshRun (demoEnv failingSite) "http://example.com/" false 2)
        "http://example.com/").calls =
      [(1, "http://example.com/"), (2, "http://example.com/a"), (2, "http://example.com/f")] ∧
    (Crawl (demoEnv failingSite) (freshRun (demoEnv failingSite) "http://example.com/" false 2)
        "http://example.com/").out =
      ["example.com/. (0, 0, 0, 0)\n", "    example.com/a. (0, 0, 0, 0)\n"] ∧
    (Crawl (demoEnv failingSite) (freshRun (demoEnv failingSite) "http://example.com/" false 2)
        "http://example.com/").panicked = false := by
  decide

/-! ## The gate of the attribute loop and the test of the host -/

theorem rootRelative_false (v : String) (h : ¬ beginsWithOneSlash v) : rootRelative v = false := by
  cases hr : rootRelative v
  · rfl
  · exact absurd ((rootRelative_iff _).mp hr) h

theorem beginsWithOneSlash_length (v : String) (h : beginsWithOneSlash v) : v.length > 0 := by
  obtain ⟨h1, _⟩ := h
  obtain ⟨l⟩ := v
  cases l with
  | nil => simp at h1
  | cons a rest => simp [String.length]

/-- The write of one turn of the attribute loop for a value that is not
root-relative and that parses. -/
theorem attrStep_absolute (env : Env) (restrictDomain : Bool) (scheme host tag : String)
    (attr : Attribute) (links : GoMap String) (parsedLink : URL)
    (hkey : env.toLower attr.Key = "href" ∨ env.toLower attr.Key = "src")
    (hval : attr.Val.length > 0) (hroot : ¬ beginsWithOneSlash attr.Val)
    (hparse : env.urlParse (absoluteURL scheme attr.Val) = some parsedLink) :
    attrStep env restrictDomain scheme host tag links attr =
      mapSet links (absoluteURL scheme attr.Val)
        (if restrictDomain = false then tag else if parsedLink.Host = host then tag
          else "external") := by
  simp only [attrStep, hval, hkey, and_self, if_true, classify, rootRelative_false _ hroot,
    hparse]
  split_ifs <;> simp_all

/-- C20: with `RestrictDomain` true, a value that is not root-relative is put in
the collection of its tag when the host of its parsed URL and the host of the
page are the same string, and in `External`, and nowhere else, when the two
strings differ in any way, be it by a port or by the case of a letter. -/
theorem host_test_exact (env : Env) (scheme host tag : String)
    (attr : Attribute) (links order : GoMap String) (url : Option URL) (cat : Category)
    (parsedLink : URL)
    (hkind : kindCategory tag = some cat)
    (hkey : env.toLower attr.Key = "href" ∨ env.toLower attr.Key = "src")
    (hval : attr.Val.length > 0)
    (hroot : ¬ beginsWithOneSlash attr.Val)
    (hparse : env.urlParse (absoluteURL scheme attr.Val) = some parsedLink)
    (hkeys : (links.map Prod.fst).Nodup)
    (horder : order.Perm (attrStep env true scheme host tag links attr)) :
    (parsedLink.Host = host →
      absoluteURL scheme attr.Val ∈ cat.of (collect order { URL := url }) ∧
        absoluteURL scheme attr.Val ∉ (collect order { URL := url }).External) ∧
    (parsedLink.Host ≠ host →
      absoluteURL scheme attr.Val ∈ (collect order { URL := url }).External ∧
        ∀ other, other ≠ Category.External →
          absoluteURL scheme attr.Val ∉ other.of (collect order { URL := url })) := by
  rw [attrStep_absolute env true scheme host tag attr links parsedLink hkey hval hroot hparse]
    at horder
  constructor
  · intro hh
    simp only [Bool.true_eq_false, if_false, hh, if_true] at horder
    have h := collect_written links order _ tag cat url hkeys horder
      (kindCategory_label tag cat hkind)
    exact ⟨h.1, h.2 Category.External (kindCategory_ne_external tag cat hkind).symm⟩
  · intro hh
    simp only [Bool.true_eq_false, if_false, hh] at horder
    exact collect_written links order _ "external" Category.External url hkeys horder rfl

theorem host_test_exact_witness :
    ("http://127.0.0.1/" ∈ (collect [("http://127.0.0.1/", "external")] {}).External ∧
      "http://127.0.0.1/" ∉ (collect [("http://127.0.0.1/", "external")] {}).Links) ∧
    ("http://EXAMPLE.com/x" ∈ (collect [("http://EXAMPLE.com/x", "external")] {}).External ∧
      "http://EXAMPLE.com/x" ∉ (collect [("http://EXAMPLE.com/x", "external")] {}).Links) := by
  have h1 := (host_test_exact (demoEnv []) "http" "127.0.0.1:8080" "a"
    { Key := "href", Val := "http://127.0.0.1/" } [] [("http://127.0.0.1/", "external")] none
    Category.Links { Scheme := "http", Host := "127.0.0.1", Path := "/" }
    (by decide) (by decide) (by decide) (by decide) (by decide) (by decide) (by decide)).2
    (by decide)
  have h2 := (host_test_exact (demoEnv []) "http" "example.com" "a"
    { Key := "href", Val := "http://EXAMPLE.com/x" } [] [("http://EXAMPLE.com/x", "external")]
    none Category.Links { Scheme := "http", Host := "EXAMPLE.com", Path := "/x" }
    (by decide) (by decide) (by decide) (by decide) (by decide) (by decide) (by decide)).2
    (by decide)
  exact ⟨⟨h1.1, h1.2 Category.Links (by decide)⟩, ⟨h2.1, h2.2 Category.Links (by decide)⟩⟩

/-- C18: the attributes of a node that is not an element named `script`, `link`,
`img`, `area` or `a` write nothing; on such an element, an attribute writes one
entry when its key is `href` or `src`, its value is not empty and, for a value
that is not root-relative, the resolved value parses, and writes nothing
otherwise; and no attribute makes `fetchURL` fail. -/
theorem extraction_gate (env : Env) (restrictDomain : Bool) (scheme host : String) :
    (∀ type data attr children links,
      ¬ (type = NodeType.ElementNode ∧ env.toLower data ∈ linkTags) →
      parseNode env restrictDomain scheme host (.mk type data attr children) links =
        parseChildren env restrictDomain scheme host children links) ∧
    (∀ data attr children links, env.toLower data ∈ linkTags →
      parseNode env restrictDomain scheme host (.mk .ElementNode data attr children) links =
        parseChildren env restrictDomain scheme host children
          (attr.foldl (attrStep env restrictDomain scheme host (env.toLower data)) links)) ∧
    (∀ tag links attr, extractionGate env scheme attr →
      ∃ label, (label = tag ∨ label = "external") ∧
        attrStep env restrictDomain scheme host tag links attr =
          mapSet links
            (if beginsWithOneSlash attr.Val then
              env.urlString { Scheme := scheme, Host := host, Path := attr.Val }
            else absoluteURL scheme attr.Val) label) ∧
    (∀ tag links attr, ¬ extractionGate env scheme attr →
      attrStep env restrictDomain scheme host tag links attr = links) ∧
    (∀ (c : Crawler) (u : String) (p : URL) (doc : Node), env.urlParse u = some p →
      env.getDocument (c.NumURLs + 1) u = some doc → (fetchURL env c u).2.2 = true) := by
  refine ⟨?_, ?_, ?_, ?_, ?_⟩
  · intro type data attr children links h
    rw [parseNode]
    simp only [h, if_false]
  · intro data attr children links h
    rw [parseNode]
    simp only [h, and_self, if_true]
  · rintro tag links attr ⟨hkey, hval, hres⟩
    by_cases hroot : beginsWithOneSlash attr.Val
    · refine ⟨tag, Or.inl rfl, ?_⟩
      simp only [attrStep, hval, hkey, and_self, if_true, classify,
        (rootRelative_iff _).mpr hroot, hroot]
    · rcases hres with hres | hres
      · exact absurd hres hroot
      · obtain ⟨parsedLink, hp⟩ := Option.isSome_iff_exists.mp hres
        refine ⟨if restrictDomain = false then tag else if parsedLink.Host = host then tag
          else "external", ?_, ?_⟩
        · split_ifs <;> simp
        · rw [if_neg hroot]
          exact attrStep_absolute env restrictDomain scheme host tag attr links parsedLink
            hkey hval hroot hp
  · intro tag links attr hgate
    unfold extractionGate at hgate
    unfold attrStep
    by_cases h1 : attr.Val.length > 0 ∧
        (env.toLower attr.Key = "href" ∨ env.toLower attr.Key = "src")
    · simp only [h1, and_self, if_true]
      have hroot : ¬ beginsWithOneSlash attr.Val := fun h => hgate ⟨h1.2, h1.1, Or.inl h⟩
      have hparse : env.urlParse (absoluteURL scheme attr.Val) = none := by
        cases hp : env.urlParse (absoluteURL scheme attr.Val) with
        | none => rfl
        | some u => exact absurd ⟨h1.2, h1.1, Or.inr (by simp [hp])⟩ hgate
      simp only [classify, rootRelative_false _ hroot, hparse]
      rfl
    · simp only [h1, if_false]
  · intro c u p doc hp hdoc
    simp [fetchURL, hp, hdoc]

/-! ## The cache of a run -/

theorem CacheGrows_refl (env : Env) (r : Run) : CacheGrows env r r :=
  ⟨[], by simp, fun h => h, fun m hm => ⟨m, hm, fun _ _ h => h, fun _ _ h => Or.inl h⟩⟩

theorem CacheGrows_trans {env : Env} {r₁ r₂ r₃ : Run} (h₁ : CacheGrows env r₁ r₂)
    (h₂ : CacheGrows env r₂ r₃) : CacheGrows env r₁ r₃ := by
  obtain ⟨e1, c1, n1, g1⟩ := h₁
  obtain ⟨e2, c2, n2, g2⟩ := h₂
  refine ⟨e1 ++ e2, by rw [c2, c1, List.append_assoc], fun h => n2 (n1 h), ?_⟩
  intro m hm
  obtain ⟨m', hm', k1, k2⟩ := g1 m hm
  obtain ⟨m'', hm'', k3, k4⟩ := g2 m' hm'
  refine ⟨m'', hm'', fun k v h => k3 k v (k1 k v h), ?_⟩
  intro k v h
  rcases k4 k v h with h' | ⟨⟨d, hd⟩, hc⟩
  · rcases k2 k v h' with h'' | ⟨⟨d, hd⟩, hc⟩
    · exact Or.inl h''
    · exact Or.inr ⟨⟨d, List.mem_append_left _ hd⟩, hc⟩
  · exact Or.inr ⟨⟨d, List.mem_append_right _ hd⟩, hc⟩

theorem lookupOrFetch_CacheGrows (env : Env) (r : Run) (u : String) (d : Int) :
    CacheGrows env r (lookupOrFetch env r u d).1 := by
  unfold lookupOrFetch
  cases hget : r.c.URLInfo.bind (fun m => mapGet m u) with
  | some p => exact CacheGrows_refl env r
  | none =>
    simp only [fetchURL_crawler]
    by_cases hok : (fetchURL env r.c u).2.2 = true
    · simp only [hok, if_true]
      cases hm : r.c.URLInfo with
      | none =>
        exact ⟨[(d, u)], rfl, fun _ => rfl, fun m h => by simp [hm] at h⟩
      | some m =>
        have hmiss : mapGet m u = none := by simpa [hm] using hget
        refine ⟨[(d, u)], rfl, fun h => by simp [hm] at h, ?_⟩
        intro m₀ hm₀
        rw [hm] at hm₀
        simp only [Option.some.injEq] at hm₀
        subst hm₀
        refine ⟨_, rfl, ?_, ?_⟩
        · intro k v hk
          rw [mapGet_mapSet]
          split_ifs with hku
          · subst hku
            rw [hmiss] at hk
            exact absurd hk (by simp)
          · exact hk
        · intro k v hk
          rw [mapGet_mapSet] at hk
          split_ifs at hk with hku
          · subst hku
            simp only [Option.some.injEq] at hk
            subst hk
            exact Or.inr ⟨⟨d, by simp⟩, r.c, Prod.ext rfl hok⟩
          · exact Or.inl hk
    · simp only [hok, if_false]
      have hg : CacheGrows env r
          { r with c := { r.c with NumURLs := r.c.NumURLs + 1 },
                   calls := r.calls ++ [(d, u)] } :=
        ⟨[(d, u)], rfl, fun h => h, fun m hm =>
          ⟨m, hm, fun _ _ h => h, fun _ _ h => Or.inl h⟩⟩
      cases (fetchURL env r.c u).2.1.URL with
      | none => exact CacheGrows_trans hg ⟨[], by simp, fun h => h, fun m hm =>
          ⟨m, hm, fun _ _ h => h, fun _ _ h => Or.inl h⟩⟩
      | some url => exact hg

/-- C13: through `Crawl` the cache `URLInfo` only grows: every entry of the
cache before the call is in the cache after it with the same `PageInfo`, and
every new entry is under a URL string that `crawl` has fetched in the call, with
the `PageInfo` that a successful `fetchURL` has returned for that string. -/
theorem cache_grows (env : Env) (r : Run) (crawlURL : String) :
    ∃ ext, (Crawl env r crawlURL).calls = r.calls ++ ext ∧
      (r.c.URLInfo = none → (Crawl env r crawlURL).c.URLInfo = none) ∧
      ∀ m, r.c.URLInfo = some m → ∃ m', (Crawl env r crawlURL).c.URLInfo = some m' ∧
        (∀ k v, mapGet m k = some v → mapGet m' k = some v) ∧
        (∀ k v, mapGet m' k = some v → mapGet m k = some v ∨
          ((∃ d, (d, k) ∈ ext) ∧ ∃ c, (fetchURL env c k).2 = (v, true))) :=
  crawlN_induct env (CacheGrows env r)
    (fun _ u d h => CacheGrows_trans h (lookupOrFetch_CacheGrows env _ u d))
    (fun _ _ _ _ h => h) (fun _ h => h) _ r crawlURL 1 (CacheGrows_refl env r)

/-! ## Termination of `crawl` -/

theorem crawl_MaxDepth (env : Env) (r : Run) (crawlURL : String) (depth : Int) :
    (crawl env r crawlURL depth).c.MaxDepth = r.c.MaxDepth :=
  (crawlN_within env _ r crawlURL depth).1

theorem foldlM_crawlFuel (env : Env) (n : Nat) (d M : Int)
    (ih : ∀ (r : Run) (link : String), r.c.MaxDepth = M →
      crawlFuel env n r link d = some (crawl env r link d)) :
    ∀ (L : List String) (r : Run), r.c.MaxDepth = M →
      L.foldlM (fun r link => crawlFuel env n r link d) r =
        some (L.foldl (fun r link => crawl env r link d) r) := by
  intro L
  induction L with
  | nil => intro r _; rfl
  | cons l rest ihl =>
    intro r hr
    rw [List.foldlM_cons, ih r l hr, List.foldl_cons]
    exact ihl _ ((crawl_MaxDepth env r l d).trans hr)

theorem crawlFuel_eq (env : Env) (fuel : Nat) :
    ∀ (r : Run) (crawlURL : String) (depth : Int),
      (r.c.MaxDepth + 1 - depth).toNat < fuel →
      crawlFuel env fuel r crawlURL depth = some (crawl env r crawlURL depth) := by
  induction fuel with
  | zero => intro r _ _ h; exact absurd h (Nat.not_lt_zero _)
  | succ n ih =>
    intro r crawlURL depth hfuel
    rw [crawlFuel, crawl_eq]
    by_cases hpan : r.panicked = true
    · simp only [hpan, if_true]
    · simp only [hpan, Bool.false_eq_true, if_false]
      by_cases hgt : depth > r.c.MaxDepth
      · simp only [hgt, if_true]
      · simp only [hgt, if_false]
        cases hp : env.urlParse crawlURL with
        | none => rfl
        | some parsedURL =>
          have hmax := (lookupOrFetch_frame env r (env.urlString parsedURL) depth).1
          simp only
          generalize lookupOrFetch env r (env.urlString parsedURL) depth = res at hmax ⊢
          obtain ⟨r1, pageInfo, hasInfo⟩ := res
          simp only at hmax ⊢
          by_cases h3 : r1.panicked = true
          · simp only [h3, if_true]
          · simp only [h3, Bool.false_eq_true, if_false]
            cases hasInfo with
            | false => simp
            | true =>
              simp only [ne_eq, not_true_eq_false, if_false]
              cases pageInfo.PrintIndent depth with
              | none => rfl
              | some line =>
                simp only [hmax]
                by_cases h5 : depth = r.c.MaxDepth
                · simp only [h5, not_true_eq_false, if_false]
                · simp only [h5, not_false_eq_true, if_true]
                  refine foldlM_crawlFuel env n (depth + 1) r.c.MaxDepth ?_ _ _ hmax
                  intro r' link hr'
                  apply ih
                  rw [hr']
                  omega

/-- C16: `crawl` terminates, for every crawler (whatever `MaxDepth` is), URL,
depth and environment: run with a bound on the number of nested calls, it
returns a result as soon as the bound is above `MaxDepth + 1 - depth`, the same
result for every such bound; with `MaxDepth < 1` the call at depth 1 returns at
once and leaves the run as it was. -/
theorem crawl_terminates (env : Env) (r : Run) (crawlURL : String) (depth : Int) :
    (∀ fuel, (r.c.MaxDepth + 1 - depth).toNat < fuel →
      crawlFuel env fuel r crawlURL depth = some (crawl env r crawlURL depth)) ∧
    (∃ result, crawlFuel env ((r.c.MaxDepth + 1 - depth).toNat + 1) r crawlURL depth =
      some result) ∧
    (∀ fuel, 0 < fuel → r.c.MaxDepth < 1 → crawlFuel env fuel r crawlURL 1 = some r) := by
  refine ⟨fun fuel h => crawlFuel_eq env fuel r crawlURL depth h,
    ⟨_, crawlFuel_eq env _ r crawlURL depth (Nat.lt_succ_self _)⟩, ?_⟩
  intro fuel hfuel hmax
  obtain ⟨n, rfl⟩ : ∃ n, fuel = n + 1 := ⟨fuel - 1, by omega⟩
  have hgt : (1 : Int) > r.c.MaxDepth := hmax
  rw [crawlFuel]
  by_cases hpan : r.panicked = true
  · simp [hpan]
  · simp [hpan, hgt]

/-! ## Run-time faults -/

theorem mapGet_mem {β : Type} (m : GoMap β) (k : String) (v : β) (h : mapGet m k = some v) :
    (k, v) ∈ m := by
  induction m with
  | nil => simp [mapGet] at h
  | cons e rest ih =>
    obtain ⟨k', v'⟩ := e
    by_cases hk : k' = k
    · simp only [mapGet, hk, if_true, Option.some.injEq] at h
      simp [hk, h]
    · simp only [mapGet, hk, if_false] at h
      exact List.mem_cons_of_mem _ (ih h)

/-- The cache statement of `crawl` on a URL string that parses keeps a started
run started, and the `PageInfo` that it hands to `PrintIndent` has its URL set. -/
theorem lookupOrFetch_started (env : Env) (r : Run) (k : String) (d : Int) (p : URL)
    (hs : Started r) (hp : env.urlParse k = some p) :
    Started (lookupOrFetch env r k d).1 ∧
      ((lookupOrFetch env r k d).2.2 = true →
        ∃ url, (lookupOrFetch env r k d).2.1.URL = some url) := by
  obtain ⟨hpan, m, hm, hurls⟩ := hs
  have hurl := fetchURL_URL env r.c k p hp
  unfold lookupOrFetch
  cases hget : r.c.URLInfo.bind (fun m => mapGet m k) with
  | some pageInfo =>
    refine ⟨⟨hpan, m, hm, hurls⟩, fun _ => ?_⟩
    have hg : mapGet m k = some pageInfo := by simpa [hm] using hget
    have := hurls _ (mapGet_mem m k pageInfo hg)
    exact Option.ne_none_iff_exists'.mp this
  | none =>
    simp only [fetchURL_crawler, hurl]
    by_cases hok : (fetchURL env r.c k).2.2 = true
    · simp only [hok, if_true, hm]
      refine ⟨⟨hpan, _, rfl, ?_⟩, fun _ => ⟨p, hurl⟩⟩
      intro e he
      rcases mem_mapSet m k _ e he with h' | h'
      · rw [h']
        simp [hurl]
      · exact hurls e h'
    · simp only [hok, if_false]
      exact ⟨⟨hpan, m, hm, hurls⟩, fun h => absurd h (by simp)⟩

theorem crawlN_started (env : Env) (hround : RoundTrip env) (fuel : Nat) :
    ∀ (r : Run) (crawlURL : String) (depth : Int), Started r →
      Started (crawlN env fuel r crawlURL depth) := by
  induction fuel with
  | zero => intro r _ _ h; exact h
  | succ n ih =>
    intro r crawlURL depth hs
    unfold crawlN
    split_ifs with h1 h2
    · exact hs
    · exact hs
    · cases hp : env.urlParse crawlURL with
      | none => exact hs
      | some parsedURL =>
        obtain ⟨p, hpk⟩ := Option.isSome_iff_exists.mp (hround crawlURL parsedURL hp)
        obtain ⟨hw, hurl⟩ :=
          lookupOrFetch_started env r (env.urlString parsedURL) depth p hs hpk
        simp only
        generalize lookupOrFetch env r (env.urlString parsedURL) depth = res at hw hurl ⊢
        obtain ⟨r1, pageInfo, hasInfo⟩ := res
        simp only at hw hurl ⊢
        split_ifs with h3 h4 h5
        · exact hw
        · exact hw
        · have hok : hasInfo = true := by simpa using h4
          obtain ⟨url, hu⟩ := hurl hok
          obtain ⟨line, hline⟩ := PrintIndent_isSome pageInfo url depth hu
          rw [hline]
          simp only
          have hv : Started { r1 with
              out := r1.out ++ [line]
              visits := r1.visits ++ [(depth, env.urlString parsedURL)] } := hw
          revert hv
          generalize ({ r1 with
            out := r1.out ++ [line]
            visits := r1.visits ++ [(depth, env.urlString parsedURL)] } : Run) = r2
          generalize pageInfo.Links = L
          intro hv
          induction L generalizing r2 with
          | nil => exact hv
          | cons l rest ihl => exact ihl _ (ih r2 l (depth + 1) hv)
        · have hok : hasInfo = true := by simpa using h4
          obtain ⟨url, hu⟩ := hurl hok
          obtain ⟨line, hline⟩ := PrintIndent_isSome pageInfo url depth hu
          rw [hline]
          exact hw

theorem mapGet_forall {β : Type} (P : β → Prop) (m : GoMap β) (k : String) (v : β)
    (h : mapGet m k = some v) (hall : ∀ e ∈ m, P e.2) : P v :=
  hall (k, v) (mapGet_mem m k v h)

set_option maxHeartbeats 2000000 in
theorem tableParse_roundTrip (pages : GoMap Node) : RoundTrip (demoEnv pages) := by
  intro s u h
  have h' : tableParse s = some u := h
  unfold tableParse at h'
  show (tableParse (linkString u.Scheme u.Host u.Path)).isSome = true
  refine mapGet_forall
    (fun u => (tableParse (linkString u.Scheme u.Host u.Path)).isSome = true) _ s u h' ?_
  decide

/-- A property of the run that the cache statement on the string of a parsed URL,
the summary line and a panic keep is kept by `crawl`. -/
theorem crawlN_induct_parsed (env : Env) (P : Run → Prop)
    (hfetch : ∀ r link p d, env.urlParse link = some p → P r →
      P (lookupOrFetch env r (env.urlString p) d).1)
    (hvisit : ∀ (r : Run) line d u, P r →
      P { r with out := r.out ++ [line], visits := r.visits ++ [(d, u)] })
    (hpanic : ∀ r : Run, P r → P { r with panicked := true }) (fuel : Nat) :
    ∀ (r : Run) (crawlURL : String) (depth : Int), P r →
      P (crawlN env fuel r crawlURL depth) := by
  induction fuel with
  | zero => intro r _ _ h; exact h
  | succ n ih =>
    intro r crawlURL depth h
    unfold crawlN
    split_ifs with h1 h2
    · exact h
    · exact h
    · cases hp : env.urlParse crawlURL with
      | none => exact h
      | some parsedURL =>
        have hw := hfetch r crawlURL parsedURL depth hp h
        simp only
        split_ifs with h3 h4 h5
        · exact hw
        · exact hw
        · cases (lookupOrFetch env r (env.urlString parsedURL) depth).2.1.PrintIndent depth with
          | none => exact hpanic _ hw
          | some line =>
            simp only
            have hv := hvisit _ line depth (env.urlString parsedURL) hw
            generalize (lookupOrFetch env r (env.urlString parsedURL) depth).2.1.Links = L
            revert hv
            generalize ({ (lookupOrFetch env r (env.urlString parsedURL) depth).1 with
              out := (lookupOrFetch env r (env.urlString parsedURL) depth).1.out ++ [line],
              visits := (lookupOrFetch env r (env.urlString parsedURL) depth).1.visits ++
                [(depth, env.urlString parsedURL)] } : Run) = r2
            intro hv
            induction L generalizing r2 with
            | nil => exact hv
            | cons l rest ihl => exact ihl _ (ih r2 l (depth + 1) hv)
        · cases (lookupOrFetch env r (env.urlString parsedURL) depth).2.1.PrintIndent depth with
          | none => exact hpanic _ hw
          | some line => exact hvisit _ line depth (env.urlString parsedURL) hw

/-- Every string that `crawl` passes to `fetchURL` is the string of a URL that
`crawl` has parsed. -/
theorem crawlN_calls_parsed (env : Env) (fuel : Nat) (r : Run) (crawlURL : String)
    (depth : Int) :
    ∀ e ∈ (crawlN env fuel r crawlURL depth).calls,
      e ∈ r.calls ∨ ∃ link p, env.urlParse link = some p ∧ e.2 = env.urlString p := by
  refine crawlN_induct_parsed env
    (fun r' => ∀ e ∈ r'.calls,
      e ∈ r.calls ∨ ∃ link p, env.urlParse link = some p ∧ e.2 = env.urlString p)
    ?_ (fun _ _ _ _ h => h) (fun _ h => h) fuel r crawlURL depth (fun _ h => Or.inl h)
  intro r' link p d hp h e he
  obtain ⟨_, _, _, _, hcalls⟩ := lookupOrFetch_frame env r' (env.urlString p) d
  rcases hcalls with ⟨hc, _⟩ | ⟨hc, _⟩
  · exact h e (hc ▸ he)
  · rw [hc] at he
    rcases List.mem_append.mp he with h' | h'
    · exact h e h'
    · rw [List.mem_singleton] at h'
      subst h'
      exact Or.inr ⟨link, p, hp, rfl⟩

/-- C19: once `Init` has succeeded, `crawl` runs to completion without a
run-time fault, for every URL string, every depth and every outcome of the
fetches; and on every string that `crawl` passes to `fetchURL`, the `PageInfo`
that `fetchURL` returns has its URL set, on failure as on success, so that the
write to `pageInfo.URL.Path` finds a URL. That the string of a parsed URL parses
again is a fact of `net/url`. -/
theorem crawl_no_fault (env : Env) (hround : RoundTrip env) (r : Run) (hstart : Started r)
    (crawlURL : String) (depth : Int) :
    (∃ result, crawlFuel env ((r.c.MaxDepth + 1 - depth).toNat + 1) r crawlURL depth =
        some result ∧ result.panicked = false) ∧
      (crawl env r crawlURL depth).panicked = false ∧
      (∀ e ∈ (crawl env r crawlURL depth).calls, e ∈ r.calls ∨
        ∀ c : Crawler, ∃ url, (fetchURL env c e.2).2.1.URL = some url) := by
  have hs := crawlN_started env hround (r.c.MaxDepth + 1 - depth).toNat r crawlURL depth hstart
  refine ⟨⟨_, crawlFuel_eq env _ r crawlURL depth (Nat.lt_succ_self _), hs.1⟩, hs.1, ?_⟩
  intro e he
  rcases crawlN_calls_parsed env _ r crawlURL depth e he with h | ⟨link, p, hp, hk⟩
  · exact Or.inl h
  · refine Or.inr (fun c => ?_)
    obtain ⟨p', hp'⟩ := Option.isSome_iff_exists.mp (hround link p hp)
    rw [hk]
    exact ⟨p', fetchURL_URL env c _ p' hp'⟩

theorem crawl_no_fault_witness :
    (Crawl (demoEnv failingSite) (freshRun (demoEnv failingSite) "http://example.com/" false 3)
        "http://example.com/").panicked = false ∧
      (Crawl (demoEnv failingSite)
        (freshRun (demoEnv failingSite) "http://example.com/" false 3) "::").panicked = false :=
  ⟨(crawl_no_fault (demoEnv failingSite) (tableParse_roundTrip failingSite)
      (freshRun (demoEnv failingSite) "http://example.com/" false 3)
      ⟨by decide, [], by decide, by simp⟩ "http://example.com/" 1).2.1,
    (crawl_no_fault (demoEnv failingSite) (tableParse_roundTrip failingSite)
      (freshRun (demoEnv failingSite) "http://example.com/" false 3)
      ⟨by decide, [], by decide, by simp⟩ "::" 1).2.1⟩

/-! ## One category for every URL string -/

theorem attrStep_eq_write (env : Env) (restrictDomain : Bool) (scheme host tag : String)
    (links : GoMap String) (attr : Attribute) :
    attrStep env restrictDomain scheme host tag links attr =
      match attrWrite env restrictDomain scheme host tag attr with
      | none => links
      | some w => mapSet links w.1 w.2 := by
  unfold attrStep attrWrite classify
  by_cases h : attr.Val.length > 0 ∧
      (env.toLower attr.Key = "href" ∨ env.toLower attr.Key = "src")
  · simp only [h, and_self, if_true]
    by_cases hr : rootRelative attr.Val = true
    · simp only [hr, if_true]
    · simp only [hr, Bool.false_eq_true, if_false]
      cases env.urlParse (absoluteURL scheme attr.Val) with
      | none => rfl
      | some parsedLink =>
        simp only
        split_ifs <;> rfl
  · simp only [h, if_false]

theorem foldl_attrStep (env : Env) (restrictDomain : Bool) (scheme host tag : String) :
    ∀ (attr : List Attribute) (links : GoMap String),
      attr.foldl (attrStep env restrictDomain scheme host tag) links =
        (attr.filterMap (attrWrite env restrictDomain scheme host tag)).foldl
          (fun m w => mapSet m w.1 w.2) links := by
  intro attr
  induction attr with
  | nil => intro links; rfl
  | cons a rest ih =>
    intro links
    rw [List.foldl_cons, ih, attrStep_eq_write]
    cases hw : attrWrite env restrictDomain scheme host tag a with
    | none => simp [List.filterMap_cons, hw]
    | some w => simp [List.filterMap_cons, hw]

mutual
theorem parseNode_eq_writes (env : Env) (restrictDomain : Bool) (scheme host : String) :
    ∀ (n : Node) (links : GoMap String),
      parseNode env restrictDomain scheme host n links =
        (nodeWrites env restrictDomain scheme host n).foldl
          (fun m w => mapSet m w.1 w.2) links
  | .mk type data attr children, links => by
    rw [parseNode, nodeWrites, List.foldl_append,
      parseChildren_eq_writes env restrictDomain scheme host children]
    by_cases h : type = NodeType.ElementNode ∧ env.toLower data ∈ linkTags
    · simp only [h, and_self, if_true, foldl_attrStep]
    · simp only [h, if_false, List.foldl_nil]
theorem parseChildren_eq_writes (env : Env) (restrictDomain : Bool) (scheme host : String) :
    ∀ (l : List Node) (links : GoMap String),
      parseChildren env restrictDomain scheme host l links =
        (childrenWrites env restrictDomain scheme host l).foldl
          (fun m w => mapSet m w.1 w.2) links
  | [], links => by rw [parseChildren, childrenWrites]; rfl
  | child :: rest, links => by
    rw [parseChildren, childrenWrites, List.foldl_append,
      parseNode_eq_writes env restrictDomain scheme host child,
      parseChildren_eq_writes env restrictDomain scheme host rest]
end

theorem lastWrite_cons (w : String × String) (rest : List (String × String)) (k : String) :
    lastWrite (w :: rest) k =
      match lastWrite rest k with
      | some l => some l
      | none => if w.1 = k then some w.2 else none := by
  unfold lastWrite
  rw [List.reverse_cons, List.find?_append]
  cases h : List.find? (fun w => decide (w.1 = k)) rest.reverse with
  | some x => simp
  | none =>
    by_cases hk : w.1 = k
    · simp [List.find?_cons, hk]
    · simp [List.find?_cons, hk]

theorem mapGet_foldl_mapSet :
    ∀ (ws : List (String × String)) (m : GoMap String) (k : String),
      mapGet (ws.foldl (fun m w => mapSet m w.1 w.2) m) k =
        match lastWrite ws k with
        | some l => some l
        | none => mapGet m k := by
  intro ws
  induction ws with
  | nil => intro m k; simp [lastWrite]
  | cons w rest ih =>
    intro m k
    rw [List.foldl_cons, ih, lastWrite_cons, mapGet_mapSet]
    cases lastWrite rest k with
    | some l => rfl
    | none =>
      simp only
      split_ifs <;> rfl

theorem foldl_mapSet_nodup :
    ∀ (ws : List (String × String)) (m : GoMap String), (m.map Prod.fst).Nodup →
      ((ws.foldl (fun m w => mapSet m w.1 w.2) m).map Prod.fst).Nodup := by
  intro ws
  induction ws with
  | nil => intro m h; exact h
  | cons w rest ih =>
    intro m h
    rw [List.foldl_cons]
    exact ih _ (mapSet_nodup m w.1 w.2 h)

theorem mem_iff_mapGet {β : Type} (m : GoMap β) (h : (m.map Prod.fst).Nodup) (k : String)
    (v : β) : (k, v) ∈ m ↔ mapGet m k = some v := by
  constructor
  · intro hm
    cases hg : mapGet m k with
    | none =>
      exfalso
      clear h
      induction m with
      | nil => simp at hm
      | cons e rest ih =>
        obtain ⟨k', v'⟩ := e
        by_cases hk : k' = k
        · simp [mapGet, hk] at hg
        · simp only [mapGet, hk, if_false] at hg
          simp only [List.mem_cons, Prod.mk.injEq] at hm
          rcases hm with ⟨h1, _⟩ | hm
          · exact hk h1.symm
          · exact ih hm hg
    | some v' =>
      rw [nodup_keys_unique m h k v v' hm (mapGet_mem m k v' hg)]
  · exact mapGet_mem m k v

theorem lastWrite_of_mem (ws : List (String × String)) (k : String)
    (h : k ∈ ws.map Prod.fst) : ∃ l, lastWrite ws k = some l ∧ (k, l) ∈ ws := by
  unfold lastWrite
  cases hf : List.find? (fun w => decide (w.1 = k)) ws.reverse with
  | none =>
    exfalso
    obtain ⟨w, hw, hk⟩ := List.mem_map.mp h
    have := List.find?_eq_none.mp hf w (List.mem_reverse.mpr hw)
    simp [hk] at this
  | some w =>
    have h1 := List.find?_some hf
    have h2 := List.mem_of_find?_eq_some hf
    simp only [decide_eq_true_eq] at h1
    refine ⟨w.2, rfl, ?_⟩
    rw [← h1]
    exact List.mem_reverse.mp h2

theorem lastWrite_mem (ws : List (String × String)) (k l : String)
    (h : lastWrite ws k = some l) : (k, l) ∈ ws := by
  unfold lastWrite at h
  cases hf : List.find? (fun w => decide (w.1 = k)) ws.reverse with
  | none => simp [hf] at h
  | some w =>
    have h1 := List.find?_some hf
    have h2 := List.mem_of_find?_eq_some hf
    simp only [decide_eq_true_eq] at h1
    simp only [hf, Option.map_some', Option.some.injEq] at h
    rw [← h1, ← h]
    exact List.mem_reverse.mp h2

theorem attrWrite_label (env : Env) (restrictDomain : Bool) (scheme host tag : String)
    (attr : Attribute) (w : String × String)
    (h : attrWrite env restrictDomain scheme host tag attr = some w) :
    w.2 = tag ∨ w.2 = "external" := by
  unfold attrWrite at h
  by_cases h1 : attr.Val.length > 0 ∧
      (env.toLower attr.Key = "href" ∨ env.toLower attr.Key = "src")
  · simp only [h1, and_self, if_true] at h
    by_cases hr : rootRelative attr.Val = true
    · simp only [hr, if_true, Option.some.injEq] at h
      rw [← h]
      exact Or.inl rfl
    · simp only [hr, Bool.false_eq_true, if_false] at h
      cases hp : env.urlParse (absoluteURL scheme attr.Val) with
      | none => simp [hp] at h
      | some parsedLink =>
        simp only [hp, Option.some.injEq] at h
        rw [← h]
        by_cases hd : restrictDomain = false
        · simp [hd]
        · by_cases hh : parsedLink.Host = host
          · simp [hd, hh]
          · simp [hd, hh]
  · simp only [h1, if_false] at h
    exact absurd h (by simp)

theorem linkTags_label (tag : String) (h : tag ∈ linkTags) :
    ∃ cat, labelCategory tag = some cat := by
  simp only [linkTags, List.mem_cons, List.mem_singleton, List.not_mem_nil, or_false] at h
  rcases h with rfl | rfl | rfl | rfl | rfl
  · exact ⟨Category.Scripts, by decide⟩
  · exact ⟨Category.Files, by decide⟩
  · exact ⟨Category.Images, by decide⟩
  · exact ⟨Category.Links, by decide⟩
  · exact ⟨Category.Links, by decide⟩

mutual
theorem nodeWrites_label (env : Env) (restrictDomain : Bool) (scheme host : String) :
    ∀ (n : Node) (w : String × String), w ∈ nodeWrites env restrictDomain scheme host n →
      ∃ cat, labelCategory w.2 = some cat
  | .mk type data attr children, w, hw => by
    rw [nodeWrites, List.mem_append] at hw
    rcases hw with hw | hw
    · split_ifs at hw with h
      · obtain ⟨a, _, ha⟩ := List.mem_filterMap.mp hw
        rcases attrWrite_label env restrictDomain scheme host _ a w ha with h' | h'
        · rw [h']
          exact linkTags_label _ h.2
        · rw [h']
          exact ⟨Category.External, by decide⟩
      · simp at hw
    · exact childrenWrites_label env restrictDomain scheme host children w hw
theorem childrenWrites_label (env : Env) (restrictDomain : Bool) (scheme host : String) :
    ∀ (l : List Node) (w : String × String),
      w ∈ childrenWrites env restrictDomain scheme host l →
      ∃ cat, labelCategory w.2 = some cat
  | [], w, hw => by simp [childrenWrites] at hw
  | child :: rest, w, hw => by
    rw [childrenWrites, List.mem_append] at hw
    rcases hw with hw | hw
    · exact nodeWrites_label env restrictDomain scheme host child w hw
    · exact childrenWrites_label env restrictDomain scheme host rest w hw
end

theorem collectStep_of (p : PageInfo) (e : String × String) (cat : Category) :
    cat.of (collectStep p e) =
      cat.of p ++ (if labelCategory e.2 = some cat then [e.1] else []) := by
  obtain ⟨k, v⟩ := e
  unfold collectStep labelCategory
  simp only
  split_ifs <;> cases cat <;> simp_all [Category.of]

theorem foldl_collectStep_of (l : GoMap String) (p : PageInfo) (cat : Category) :
    cat.of (l.foldl collectStep p) =
      cat.of p ++ (l.filter (fun e => labelCategory e.2 = some cat)).map Prod.fst := by
  induction l generalizing p with
  | nil => simp
  | cons e rest ih =>
    rw [List.foldl_cons, ih, collectStep_of, List.filter_cons]
    by_cases h : labelCategory e.2 = some cat
    · simp [h]
    · simp [h]

theorem collect_nodup (order : GoMap String) (url : Option URL) (cat : Category)
    (h : (order.map Prod.fst).Nodup) : (cat.of (collect order { URL := url })).Nodup := by
  have hsub : ∀ c : Category,
      ((order.filter (fun e => labelCategory e.2 = some c)).map Prod.fst).Nodup :=
    fun c => List.Nodup.sublist (List.Sublist.map _ (List.filter_sublist _)) h
  have hf : ∀ c : Category, (c.of (order.foldl collectStep { URL := url })).Nodup := by
    intro c
    rw [foldl_collectStep_of]
    have : c.of ({ URL := url } : PageInfo) = [] := by cases c <;> rfl
    rw [this, List.nil_append]
    exact hsub c
  cases cat with
  | Links =>
    show (sortStrings (order.foldl collectStep { URL := url }).Links).Nodup
    exact (List.perm_insertionSort strLE _).nodup_iff.mpr (hf Category.Links)
  | Scripts => exact hf Category.Scripts
  | Files => exact hf Category.Files
  | Images => exact hf Category.Images
  | External => exact hf Category.External

/-- C11: in the `PageInfo` of a successful `fetchURL`, every collection is free
of duplicates, no string is in two collections, a string is in a collection
exactly when the last entry written under it in the walk of the document has a
label of that collection, and every string written in the walk is in one
collection; the `PageInfo` of a failed `fetchURL` has empty collections. -/
theorem one_category (env : Env) (c : Crawler) (u : String) :
    (∀ p doc, env.urlParse u = some p → env.getDocument (c.NumURLs + 1) u = some doc →
      (∀ cat : Category, (cat.of (fetchURL env c u).2.1).Nodup) ∧
      (∀ (cat cat' : Category) (x : String), x ∈ cat.of (fetchURL env c u).2.1 →
        x ∈ cat'.of (fetchURL env c u).2.1 → cat = cat') ∧
      (∀ (x : String) (cat : Category), x ∈ cat.of (fetchURL env c u).2.1 ↔
        ∃ label, lastWrite (nodeWrites env c.RestrictDomain p.Scheme p.Host doc) x =
          some label ∧ labelCategory label = some cat) ∧
      (∀ x, x ∈ (nodeWrites env c.RestrictDomain p.Scheme p.Host doc).map Prod.fst →
        ∃ cat : Category, x ∈ cat.of (fetchURL env c u).2.1)) ∧
    ((fetchURL env c u).2.2 = false →
      ∀ cat : Category, cat.of (fetchURL env c u).2.1 = []) := by
  constructor
  · intro p doc hp hdoc
    have hres := fetchURL_success env c u p doc hp hdoc
    have hpi : (fetchURL env c u).2.1 =
        collect (env.rangeOrder (c.NumURLs + 1)
          (parseNode env c.RestrictDomain p.Scheme p.Host doc [])) { URL := some p } := by
      rw [hres]
    rw [hpi]
    have hperm := env.range_perm (c.NumURLs + 1)
      (parseNode env c.RestrictDomain p.Scheme p.Host doc [])
    have hlinks := parseNode_eq_writes env c.RestrictDomain p.Scheme p.Host doc []
    have hnd : ((parseNode env c.RestrictDomain p.Scheme p.Host doc []).map Prod.fst).Nodup := by
      rw [hlinks]
      exact foldl_mapSet_nodup _ [] (by simp)
    have hnd' := (hperm.map Prod.fst).nodup_iff.mpr hnd
    have hent : ∀ x label, (x, label) ∈ env.rangeOrder (c.NumURLs + 1)
        (parseNode env c.RestrictDomain p.Scheme p.Host doc []) ↔
        lastWrite (nodeWrites env c.RestrictDomain p.Scheme p.Host doc) x = some label := by
      intro x label
      rw [hperm.mem_iff, mem_iff_mapGet _ hnd, hlinks, mapGet_foldl_mapSet]
      cases lastWrite (nodeWrites env c.RestrictDomain p.Scheme p.Host doc) x with
      | none => simp [mapGet]
      | some l => simp
    have hmem : ∀ x cat,
        x ∈ cat.of (collect (env.rangeOrder (c.NumURLs + 1)
          (parseNode env c.RestrictDomain p.Scheme p.Host doc [])) { URL := some p }) ↔
        ∃ label, lastWrite (nodeWrites env c.RestrictDomain p.Scheme p.Host doc) x =
          some label ∧ labelCategory label = some cat := by
      intro x cat
      rw [mem_collect]
      constructor
      · rintro (h | ⟨label, h1, h2⟩)
        · cases cat <;> simp [Category.of] at h
        · exact ⟨label, (hent x label).mp h1, h2⟩
      · rintro ⟨label, h1, h2⟩
        exact Or.inr ⟨label, (hent x label).mpr h1, h2⟩
    refine ⟨fun cat => collect_nodup _ _ cat hnd', ?_, hmem, ?_⟩
    · intro cat cat' x h1 h2
      obtain ⟨l1, a1, b1⟩ := (hmem x cat).mp h1
      obtain ⟨l2, a2, b2⟩ := (hmem x cat').mp h2
      rw [a1] at a2
      simp only [Option.some.injEq] at a2
      subst a2
      rw [b1] at b2
      exact Option.some.inj b2
    · intro x hx
      obtain ⟨l, h1, h2⟩ := lastWrite_of_mem _ x hx
      obtain ⟨cat, hcat⟩ := nodeWrites_label env c.RestrictDomain p.Scheme p.Host doc _ h2
      exact ⟨cat, (hmem x cat).mpr ⟨l, h1, hcat⟩⟩
  · intro hfail cat
    unfold fetchURL at hfail ⊢
    cases hp : env.urlParse u with
    | none => cases cat <;> rfl
    | some p =>
      simp only [hp] at hfail ⊢
      cases hdoc : env.getDocument (c.NumURLs + 1) u with
      | none => cases cat <;> rfl
      | some doc => simp [hdoc] at hfail

theorem one_category_witness :
    "http://example.com/x" ∈
        (fetchURL (demoEnv twiceSite) {} "http://example.com/").2.1.Images ∧
      "http://example.com/x" ∉
        (fetchURL (demoEnv twiceSite) {} "http://example.com/").2.1.Links := by
  have h := (one_category (demoEnv twiceSite) {} "http://example.com/").1
    { Scheme := "http", Host := "example.com", Path := "/" }
    (htmlPage [element "a" "href" "/x", element "img" "src" "/x"]) (by decide) rfl
  have h1 : "http://example.com/x" ∈
      Category.Images.of (fetchURL (demoEnv twiceSite) {} "http://example.com/").2.1 :=
    (h.2.2.1 _ Category.Images).mpr ⟨"img", by decide, by decide⟩
  refine ⟨h1, fun h2 => ?_⟩
  have := h.2.1 Category.Images Category.Links _ h1 h2
  exact absurd this (by decide)

end Sitemap
